import Mathlib

/-!
Shallow embedding of the clingoDL difference-logic propagator (src/main.cpp).

The central piece is `DifferenceLogicGraph::add_edge`: incremental negative-cycle
detection over node potentials with a Dijkstra-style relaxation loop, plus the
propagator adaptor (`propagate` / `check_consistency` / `undo`) that drives it
from the host solver's literal stream.

Modelling conventions:
* C++ `int` is modelled as unbounded `Int` (the design assumes no overflow);
  the sentinel `std::numeric_limits<int>::min()` used for undefined potentials
  is kept concrete as `-(2^31)` (32-bit `int`), so sentinel comparisons behave
  exactly as in the source whenever no overflow occurs.
* `std::priority_queue` with comparator `a.gamma > b.gamma` is a min-queue on
  `gamma`; it is modelled as a list where `push` appends and `top`/`pop` take
  the first entry of minimal `gamma` (ties keep the older entry, matching the
  stable behaviour of the binary-heap sift used by the source's library).
* The unbounded `while` loops of the source are modelled with explicit fuel;
  `add_edge` passes fuel bounds that are proved sufficient below, so on
  well-formed states the fuel never runs out.
* `lit_to_edges_` (`std::unordered_multimap<literal_t, int>`) is modelled on
  its element sequence: equal keys stay adjacent, and `emplace` links a new
  entry at the head of its equal-key group, as libstdc++'s
  `_M_insert_multi_node` does — so a literal's group iterates in reverse
  registration order. Only one equal-key group is ever walked at a time
  (`find` + same-key loop), so the relative placement of distinct-key groups
  is unobservable and kept as construction order.
* Out-of-range vector accesses are undefined behaviour in the source; here
  `List.getD` / `List.set` give total default/no-op semantics, and the
  well-formedness hypotheses keep all accesses in range.
-/

namespace ClingoDL

/-- Edge record: `struct Edge { int from; int to; int weight; literal_t lit; }`.
Node ids produced by `map_vert` are dense non-negative indices, hence `Nat`. -/
structure Edge where
  from_ : Nat
  to_ : Nat
  weight : Int
  lit : Int
deriving DecidableEq, Repr

def defaultEdge : Edge := ⟨0, 0, 0, 0⟩

/-- `constexpr int undefined_potential = std::numeric_limits<int>::min();` for 32-bit `int`. -/
def undefined_potential : Int := -(2 ^ 31)

/-- `struct DifferenceLogicNode` with its default member initializers. -/
structure DifferenceLogicNode where
  outgoing : List Nat
  potential : Int
  last_edge : Nat
  gamma : Int
  changed : Bool
deriving DecidableEq, Repr

/-- A default-constructed node: `outgoing` empty, `potential = undefined_potential`,
`last_edge = 0`, `gamma = 0`, `changed = false`. -/
def newNode : DifferenceLogicNode := ⟨[], undefined_potential, 0, 0, false⟩

/-- `struct DifferenceLogicNodeUpdate { int node_idx; int gamma; }`. -/
structure NodeUpdate where
  node_idx : Nat
  gamma : Int
deriving DecidableEq, Repr

/-- Scan for the entry of minimal `gamma`, keeping the earlier entry on ties. -/
def qtopAux (b : NodeUpdate) : List NodeUpdate → NodeUpdate
  | [] => b
  | x :: xs => qtopAux (if x.gamma < b.gamma then x else b) xs

/-- `gamma_.top()`: the first entry of minimal `gamma` (see the modelling notes). -/
def qtop? : List NodeUpdate → Option NodeUpdate
  | [] => none
  | x :: xs => some (qtopAux x xs)

/-- `gamma_.pop()`: remove the top entry. -/
def qpop (q : List NodeUpdate) : List NodeUpdate :=
  match qtop? q with
  | none => []
  | some m => q.erase m

/-- `gamma_.push(x)`. -/
def qpush (q : List NodeUpdate) (x : NodeUpdate) : List NodeUpdate := q ++ [x]

/-- Read `nodes_[i]` (out of range gives a default node; in the source such an
access is preceded by `ensure_index` or guarded by the invariants). -/
def getN (ns : List DifferenceLogicNode) (i : Nat) : DifferenceLogicNode := ns.getD i newNode

/-- Read `edges_[i]`. -/
def getE (es : List Edge) (i : Nat) : Edge := es.getD i defaultEdge

/-- In-place update of `nodes_[i]`. -/
def updN (ns : List DifferenceLogicNode) (i : Nat)
    (f : DifferenceLogicNode → DifferenceLogicNode) : List DifferenceLogicNode :=
  ns.set i (f (getN ns i))

/-- The graph: scratch priority queue `gamma_`, scratch list `changed_`,
the shared immutable edge table `edges_`, and the node records `nodes_`. -/
structure DifferenceLogicGraph where
  gamma_q : List NodeUpdate
  changed_ : List Nat
  edges_ : List Edge
  nodes_ : List DifferenceLogicNode
deriving DecidableEq, Repr

/-- `ensure_index(c, index)`: `if (index >= c.size()) c.resize(index + 1);`. -/
def ensure_index (c : List DifferenceLogicNode) (index : Nat) : List DifferenceLogicNode :=
  if c.length ≤ index then c ++ List.replicate (index + 1 - c.length) newNode else c

/-- The inner `for (auto st_idx : s.outgoing)` relaxation over the outgoing
edges of the freshly changed node `s_idx`, threading `(nodes_, gamma_)`. -/
def relax_out (es : List Edge) (s_idx : Nat) :
    List Nat → List DifferenceLogicNode × List NodeUpdate →
    List DifferenceLogicNode × List NodeUpdate
  | [], st => st
  | st_idx :: rest, (ns, q) =>
    let st := getE es st_idx
    let t := getN ns st.to_
    if t.changed then relax_out es s_idx rest (ns, q)
    else
      let gm := (getN ns s_idx).potential + st.weight - t.potential
      if gm < t.gamma then
        relax_out es s_idx rest
          (updN ns st.to_ (fun x => { x with gamma := gm, last_edge := st_idx }),
           qpush q ⟨st.to_, gm⟩)
      else relax_out es s_idx rest (ns, q)

/-- One iteration of the `while (!gamma_.empty() && u.gamma == 0)` body:
read the top, process it unless its node is already `changed`, then pop. -/
def relax_step (g : DifferenceLogicGraph) : DifferenceLogicGraph :=
  match qtop? g.gamma_q with
  | none => g
  | some tp =>
    let s := getN g.nodes_ tp.node_idx
    if s.changed then { g with gamma_q := qpop g.gamma_q }
    else
      let ns1 := updN g.nodes_ tp.node_idx
        (fun x => { x with potential := x.potential + x.gamma, gamma := 0, changed := true })
      let r := relax_out g.edges_ tp.node_idx s.outgoing (ns1, g.gamma_q)
      { g with nodes_ := r.1, gamma_q := qpop r.2, changed_ := g.changed_ ++ [tp.node_idx] }

/-- The relaxation loop, with explicit fuel (the source's loop is unbounded;
`add_edge` passes a fuel bound proved sufficient for well-formed states). -/
def relax_loop (u_idx : Nat) : Nat → DifferenceLogicGraph → DifferenceLogicGraph
  | 0, g => g
  | fuel + 1, g =>
    if g.gamma_q ≠ [] ∧ (getN g.nodes_ u_idx).gamma = 0 then
      relax_loop u_idx fuel (relax_step g)
    else g

/-- One term of the termination measure for a node. -/
def nodeMeasure (x : DifferenceLogicNode) : Nat :=
  if x.changed then 0 else 1 + x.outgoing.length

/-- Termination measure for the relaxation loop: each iteration strictly
decreases it, so it bounds the number of iterations. -/
def graphMeasure (g : DifferenceLogicGraph) : Nat :=
  g.gamma_q.length + (g.nodes_.map nodeMeasure).sum

/-- The negative-cycle reconstruction walk: starting from `next_idx`, follow
`last_edge` pointers backwards until the walk returns to `v_idx` (`uv.to_`).
Fuel bounds the walk; `add_edge` passes a bound proved sufficient. -/
def collect_cycle (es : List Edge) (ns : List DifferenceLogicNode) (v_idx : Nat) :
    Nat → Nat → List Nat → List Nat
  | 0, _, acc => acc
  | fuel + 1, next_idx, acc =>
    if v_idx = next_idx then acc
    else
      let e := (getN ns next_idx).last_edge
      collect_cycle es ns v_idx fuel (getE es e).from_ (acc ++ [e])

/-- The cleanup drain `while (!gamma_.empty()) { nodes_[top].gamma = 0; pop; }`,
with fuel; `add_edge` passes the queue length, which empties it exactly. -/
def drainFuel : Nat → List NodeUpdate → List DifferenceLogicNode → List DifferenceLogicNode
  | 0, _, ns => ns
  | fuel + 1, q, ns =>
    match qtop? q with
    | none => ns
    | some tp => drainFuel fuel (qpop q) (updN ns tp.node_idx (fun x => { x with gamma := 0 }))

/-- `DifferenceLogicGraph::add_edge(int uv_idx)`, returning the negative cycle
(empty when the edge is installed) together with the updated graph. -/
def add_edge (g : DifferenceLogicGraph) (uv_idx : Nat) : List Nat × DifferenceLogicGraph :=
  let uv := getE g.edges_ uv_idx
  -- initialize the nodes of the edge to add
  let ns0 := ensure_index g.nodes_ (max uv.from_ uv.to_)
  let ns1 := if (getN ns0 uv.from_).potential = undefined_potential then
      updN ns0 uv.from_ (fun x => { x with potential := 0 }) else ns0
  let ns2 := if (getN ns1 uv.to_).potential = undefined_potential then
      updN ns1 uv.to_ (fun x => { x with potential := 0 }) else ns1
  let gv := (getN ns2 uv.from_).potential + uv.weight - (getN ns2 uv.to_).potential
  let ns3 := updN ns2 uv.to_ (fun x => { x with gamma := gv })
  let ns4 := if gv < 0 then updN ns3 uv.to_ (fun x => { x with last_edge := uv_idx }) else ns3
  let q0 := if gv < 0 then qpush g.gamma_q ⟨uv.to_, gv⟩ else g.gamma_q
  let gA : DifferenceLogicGraph :=
    { gamma_q := q0, changed_ := g.changed_, edges_ := g.edges_, nodes_ := ns4 }
  -- detect negative cycles
  let gB := relax_loop uv.from_ (graphMeasure gA) gA
  -- gather the edges in the negative cycle
  let neg_cycle :=
    if (getN gB.nodes_ uv.from_).gamma < 0 then
      collect_cycle gB.edges_ gB.nodes_ uv.to_ (gB.changed_.length + 1)
        (getE gB.edges_ (getN gB.nodes_ uv.to_).last_edge).from_
        [(getN gB.nodes_ uv.to_).last_edge]
    else []
  -- or add the edge to the graph
  let nsB :=
    if (getN gB.nodes_ uv.from_).gamma < 0 then gB.nodes_
    else updN gB.nodes_ uv.from_ (fun x => { x with outgoing := x.outgoing ++ [uv_idx] })
  -- reset gamma and changed flags
  let nsC := updN nsB uv.to_ (fun x => { x with gamma := 0 })
  let nsD := drainFuel gB.gamma_q.length gB.gamma_q nsC
  let nsE := gB.changed_.foldl (fun acc i => updN acc i (fun x => { x with changed := false })) nsD
  (neg_cycle, { gamma_q := [], changed_ := [], edges_ := gB.edges_, nodes_ := nsE })

/-- `reset()`: `nodes_.clear();`. -/
def reset (g : DifferenceLogicGraph) : DifferenceLogicGraph := { g with nodes_ := [] }

/-- `node_value_defined(idx)`: `nodes_[idx].potential != undefined_potential`. -/
def node_value_defined (g : DifferenceLogicGraph) (idx : Nat) : Bool :=
  (getN g.nodes_ idx).potential != undefined_potential

/-- `node_value(idx)`: `-nodes_[idx].potential`. -/
def node_value (g : DifferenceLogicGraph) (idx : Nat) : Int :=
  -(getN g.nodes_ idx).potential

/-- A graph over the edge table `es` with no node records, as produced by the
constructor or by `reset`. -/
def freshGraph (es : List Edge) : DifferenceLogicGraph :=
  { gamma_q := [], changed_ := [], edges_ := es, nodes_ := [] }

/-! ### The propagator adaptor -/

/-- Per-thread `DLState` (minus timing statistics): the literal trail, the
propagation cursor, and the owned consistency graph. -/
structure DLState where
  edge_trail : List Int
  propagated : Nat
  dl_graph : DifferenceLogicGraph
deriving DecidableEq, Repr

/-- `lit_to_edges_.emplace(k, idx)` on the `unordered_multimap<literal_t, int>`,
modelled on its element sequence: the standard guarantees that entries with
equal keys are adjacent, and libstdc++ links a new node with an already
present key directly *before* the first existing node of that key
(`_M_insert_multi_node`), so the new entry becomes the head of its group; a
new key opens a fresh group (placed at the end here — the relative order of
distinct-key groups is unspecified and never observed, since the code only
walks one equal-key group at a time). -/
def mm_insert (tbl : List (Int × Nat)) (k : Int) (idx : Nat) : List (Int × Nat) :=
  match tbl with
  | [] => [(k, idx)]
  | p :: rest => if p.1 == k then (k, idx) :: p :: rest else p :: mm_insert rest k idx

/-- The lookup loop of `check_consistency`:
`for (it = lit_to_edges_.find(lit); it != end && it->first == lit; ++it)` —
the equal-key group of `lit` in the container's element order (equal keys are
adjacent, so this is the stable filter of the element sequence). -/
def edges_for (tbl : List (Int × Nat)) (lit : Int) : List Nat :=
  (tbl.filter (fun p => p.1 == lit)).map (fun p => p.2)

/-- The edge-table part of `add_edge_atom`: `edges_.push_back(...)` with the
fresh dense index `edges_.size()`, and `lit_to_edges_.emplace(lit, id)`. -/
def register_edge (es : List Edge) (tbl : List (Int × Nat)) (e : Edge) :
    List Edge × List (Int × Nat) :=
  (es ++ [e], mm_insert tbl e.lit es.length)

/-- Build the edge table by registering edges in order (what `init` does over
the `diff` theory atoms). -/
def build_table (regs : List Edge) : List Edge × List (Int × Nat) :=
  regs.foldl (fun acc e => register_edge acc.1 acc.2 e) ([], [])

/-- The inner loop of `check_consistency` over the edges controlled by one
literal: call `add_edge`; on a non-empty cycle build the conflict clause from
the negated controlling literals and stop (the source hands the clause to the
host, which reports the conflict and stops propagation). -/
def process_edges (es : List Edge) (g : DifferenceLogicGraph) :
    List Nat → DifferenceLogicGraph × Option (List Int)
  | [] => (g, none)
  | eidx :: rest =>
    let r := add_edge g eidx
    if r.1 ≠ [] then (r.2, some (r.1.map (fun eid => -(getE es eid).lit)))
    else process_edges es r.2 rest

/-- The outer loop of `check_consistency`:
`for (; propagated < edge_trail.size(); ++propagated)`, with fuel
(`check_consistency` passes the remaining trail length, which suffices). -/
def check_loop (es : List Edge) (tbl : List (Int × Nat)) :
    Nat → DLState → DLState × Option (List Int)
  | 0, st => (st, none)
  | fuel + 1, st =>
    if st.propagated < st.edge_trail.length then
      let lit := st.edge_trail.getD st.propagated 0
      let r := process_edges es st.dl_graph (edges_for tbl lit)
      match r.2 with
      | some cl => ({ st with dl_graph := r.1 }, some cl)
      | none => check_loop es tbl fuel { st with dl_graph := r.1, propagated := st.propagated + 1 }
    else (st, none)

/-- `check_consistency(ctl, state)`; `none` means propagation continued
without conflict, `some cl` is the conflict clause handed to the host. -/
def check_consistency (es : List Edge) (tbl : List (Int × Nat)) (st : DLState) :
    DLState × Option (List Int) :=
  check_loop es tbl (st.edge_trail.length - st.propagated) st

/-- `propagate(ctl, changes)`: append each literal of `changes` to
`edge_trail`, then run `check_consistency`. -/
def propagate (es : List Edge) (tbl : List (Int × Nat)) (st : DLState) (changes : List Int) :
    DLState × Option (List Int) :=
  check_consistency es tbl { st with edge_trail := st.edge_trail ++ changes }

/-- `undo(ctl, changes)`: truncate the trail by `|changes|`, reset the cursor
and the graph. -/
def undo (st : DLState) (changes : List Int) : DLState :=
  { edge_trail := st.edge_trail.take (st.edge_trail.length - changes.length),
    propagated := 0,
    dl_graph := reset st.dl_graph }

/-- The graph after a run of successive `add_edge` calls (the inner loop of
`check_consistency` folds the per-literal edge group through `add_edge`). -/
def add_edges_along (g : DifferenceLogicGraph) (l : List Nat) : DifferenceLogicGraph :=
  l.foldl (fun acc e => (add_edge acc e).2) g

/-- One conflict-free iteration of the `check_consistency` loop body: run
`add_edge` over the current trail literal's edge group and advance the
cursor. -/
def check_step (es : List Edge) (tbl : List (Int × Nat)) (st : DLState) : DLState :=
  { st with
    dl_graph := (process_edges es st.dl_graph
      (edges_for tbl (st.edge_trail.getD st.propagated 0))).1,
    propagated := st.propagated + 1 }

/-! ### Quiescence well-formedness -/

/-- Scratch state is clean: all `gamma` zero, all `changed` flags false, the
priority queue and the changed list empty (spec invariants 2–3). -/
def scratch_clean (g : DifferenceLogicGraph) : Prop :=
  (∀ x ∈ g.nodes_, x.gamma = 0 ∧ x.changed = false) ∧ g.gamma_q = [] ∧ g.changed_ = []

/-- A well-formed active-edge entry `eidx ∈ outgoing(i)`: valid index, correct
`from`, in-range `to`, defined endpoint potentials, non-negative reduced
weight (spec invariants 1 and 4). -/
def edge_ok (g : DifferenceLogicGraph) (i eidx : Nat) : Prop :=
  eidx < g.edges_.length ∧
  (getE g.edges_ eidx).from_ = i ∧
  (getE g.edges_ eidx).to_ < g.nodes_.length ∧
  (getN g.nodes_ i).potential ≠ undefined_potential ∧
  (getN g.nodes_ (getE g.edges_ eidx).to_).potential ≠ undefined_potential ∧
  0 ≤ (getN g.nodes_ i).potential + (getE g.edges_ eidx).weight -
      (getN g.nodes_ (getE g.edges_ eidx).to_).potential

/-- Quiescence: the invariants that hold between `add_edge` calls. -/
def WF (g : DifferenceLogicGraph) : Prop :=
  scratch_clean g ∧
  ∀ i ∈ List.range g.nodes_.length, ∀ eidx ∈ (getN g.nodes_ i).outgoing, edge_ok g i eidx

/-- Feasibility of every active edge at the current potentials: non-negative
reduced weight `potential(from) + weight − potential(to)`. -/
def Feasible (g : DifferenceLogicGraph) : Prop :=
  ∀ i ∈ List.range g.nodes_.length, ∀ eidx ∈ (getN g.nodes_ i).outgoing,
    0 ≤ (getN g.nodes_ i).potential + (getE g.edges_ eidx).weight -
        (getN g.nodes_ (getE g.edges_ eidx).to_).potential

instance (g : DifferenceLogicGraph) : Decidable (scratch_clean g) := by
  unfold scratch_clean; infer_instance

instance (g : DifferenceLogicGraph) (i eidx : Nat) : Decidable (edge_ok g i eidx) := by
  unfold edge_ok; infer_instance

instance (g : DifferenceLogicGraph) : Decidable (WF g) := by
  unfold WF; infer_instance

instance (g : DifferenceLogicGraph) : Decidable (Feasible g) := by
  unfold Feasible; infer_instance

/-! ### Verification predicates for the relaxation loop

`A` always denotes the state at entry of the relaxation loop (after node
initialization and the initial push), `E` the edge table, `uv_idx` the index
of the edge being added. -/

/-- Abbreviations for the endpoints and weight of the edge being added. -/
def uNode (E : List Edge) (uv_idx : Nat) : Nat := (getE E uv_idx).from_
def vNode (E : List Edge) (uv_idx : Nat) : Nat := (getE E uv_idx).to_
def wEdge (E : List Edge) (uv_idx : Nat) : Int := (getE E uv_idx).weight

/-- Sum of the weights of a list of edge indices. -/
def weightSum (E : List Edge) (l : List Nat) : Int :=
  (l.map (fun e => (getE E e).weight)).sum

/-- The potential of node `i` after the lazy initialization at the top of
`add_edge`: an undefined potential is set to 0. -/
def potInit (g : DifferenceLogicGraph) (i : Nat) : Int :=
  if (getN g.nodes_ i).potential = undefined_potential then 0
  else (getN g.nodes_ i).potential

/-- The initial `v.gamma` computed by `add_edge` (the reduced weight of the
new edge at the initialized potentials). -/
def addGv (g : DifferenceLogicGraph) (uv_idx : Nat) : Int :=
  potInit g (getE g.edges_ uv_idx).from_ + (getE g.edges_ uv_idx).weight -
    potInit g (getE g.edges_ uv_idx).to_

/-- Layer 0 of `add_edge`: `ensure_index(nodes_, max(uv.from, uv.to))`. -/
def nsEns (g : DifferenceLogicGraph) (uv_idx : Nat) : List DifferenceLogicNode :=
  ensure_index g.nodes_ (max (getE g.edges_ uv_idx).from_ (getE g.edges_ uv_idx).to_)

/-- Layer 1: initialize `u.potential` when undefined. -/
def nsPotU (g : DifferenceLogicGraph) (uv_idx : Nat) : List DifferenceLogicNode :=
  if (getN (nsEns g uv_idx) (getE g.edges_ uv_idx).from_).potential = undefined_potential then
    updN (nsEns g uv_idx) (getE g.edges_ uv_idx).from_ (fun x => { x with potential := 0 })
  else nsEns g uv_idx

/-- Layer 2: initialize `v.potential` when undefined. -/
def nsPotV (g : DifferenceLogicGraph) (uv_idx : Nat) : List DifferenceLogicNode :=
  if (getN (nsPotU g uv_idx) (getE g.edges_ uv_idx).to_).potential = undefined_potential then
    updN (nsPotU g uv_idx) (getE g.edges_ uv_idx).to_ (fun x => { x with potential := 0 })
  else nsPotU g uv_idx

/-- Layer 3: set `v.gamma` to the reduced weight of the new edge. -/
def nsGam (g : DifferenceLogicGraph) (uv_idx : Nat) : List DifferenceLogicNode :=
  updN (nsPotV g uv_idx) (getE g.edges_ uv_idx).to_ (fun x =>
    { x with gamma := (getN (nsPotV g uv_idx) (getE g.edges_ uv_idx).from_).potential +
        (getE g.edges_ uv_idx).weight -
        (getN (nsPotV g uv_idx) (getE g.edges_ uv_idx).to_).potential })

/-- Layer 4: record `v.last_edge` when the new edge is pushed. -/
def nsLast (g : DifferenceLogicGraph) (uv_idx : Nat) : List DifferenceLogicNode :=
  if (getN (nsPotV g uv_idx) (getE g.edges_ uv_idx).from_).potential +
      (getE g.edges_ uv_idx).weight -
      (getN (nsPotV g uv_idx) (getE g.edges_ uv_idx).to_).potential < 0 then
    updN (nsGam g uv_idx) (getE g.edges_ uv_idx).to_ (fun x => { x with last_edge := uv_idx })
  else nsGam g uv_idx

/-- The state of the graph at entry of the relaxation loop of
`add_edge g uv_idx` (nodes materialized and initialized, `v.gamma` set, and
`v` pushed when its gamma is negative). This is a decomposition of `add_edge`,
see `add_edge_eq`. -/
def addInit (g : DifferenceLogicGraph) (uv_idx : Nat) : DifferenceLogicGraph :=
  { gamma_q :=
      if (getN (nsPotV g uv_idx) (getE g.edges_ uv_idx).from_).potential +
          (getE g.edges_ uv_idx).weight -
          (getN (nsPotV g uv_idx) (getE g.edges_ uv_idx).to_).potential < 0 then
        qpush g.gamma_q ⟨(getE g.edges_ uv_idx).to_,
          (getN (nsPotV g uv_idx) (getE g.edges_ uv_idx).from_).potential +
          (getE g.edges_ uv_idx).weight -
          (getN (nsPotV g uv_idx) (getE g.edges_ uv_idx).to_).potential⟩
      else g.gamma_q,
    changed_ := g.changed_, edges_ := g.edges_, nodes_ := nsLast g uv_idx }

/-- The state after the relaxation loop of `add_edge g uv_idx`. -/
def addLoop (g : DifferenceLogicGraph) (uv_idx : Nat) : DifferenceLogicGraph :=
  relax_loop (getE g.edges_ uv_idx).from_ (graphMeasure (addInit g uv_idx)) (addInit g uv_idx)

/-- The negative cycle collected by `add_edge g uv_idx` (empty in the install
case). -/
def addCycle (g : DifferenceLogicGraph) (uv_idx : Nat) : List Nat :=
  let uv := getE g.edges_ uv_idx
  let gB := addLoop g uv_idx
  if (getN gB.nodes_ uv.from_).gamma < 0 then
    collect_cycle gB.edges_ gB.nodes_ uv.to_ (gB.changed_.length + 1)
      (getE gB.edges_ (getN gB.nodes_ uv.to_).last_edge).from_
      [(getN gB.nodes_ uv.to_).last_edge]
  else []

/-- The final graph returned by `add_edge g uv_idx` (install or reject, then
cleanup). -/
def addFinal (g : DifferenceLogicGraph) (uv_idx : Nat) : DifferenceLogicGraph :=
  let uv := getE g.edges_ uv_idx
  let gB := addLoop g uv_idx
  let nsB :=
    if (getN gB.nodes_ uv.from_).gamma < 0 then gB.nodes_
    else updN gB.nodes_ uv.from_ (fun x => { x with outgoing := x.outgoing ++ [uv_idx] })
  let nsC := updN nsB uv.to_ (fun x => { x with gamma := 0 })
  let nsD := drainFuel gB.gamma_q.length gB.gamma_q nsC
  let nsE := gB.changed_.foldl (fun acc i => updN acc i (fun x => { x with changed := false })) nsD
  { gamma_q := [], changed_ := [], edges_ := gB.edges_, nodes_ := nsE }

/-- `revPath E a b l`: the edge-index list `l` walks backwards from node `a`
to node `b`: each edge points *into* the current node, and its `from_` is the
next current node. -/
def revPath (E : List Edge) : Nat → Nat → List Nat → Prop
  | a, b, [] => a = b
  | a, b, e :: l => (getE E e).to_ = a ∧ revPath E (getE E e).from_ b l

/-- Static facts about the loop-entry state `A`, fixed during the loop. -/
structure Stat (E : List Edge) (uv_idx : Nat) (A : DifferenceLogicGraph) : Prop where
  hAE : A.edges_ = E
  hidx : uv_idx < E.length
  hult : uNode E uv_idx < A.nodes_.length
  hvlt : vNode E uv_idx < A.nodes_.length
  hout : ∀ i, ∀ eidx ∈ (getN A.nodes_ i).outgoing,
    eidx < E.length ∧ (getE E eidx).from_ = i ∧ (getE E eidx).to_ < A.nodes_.length ∧
    0 ≤ (getN A.nodes_ i).potential + (getE E eidx).weight -
        (getN A.nodes_ (getE E eidx).to_).potential
  hAc : A.changed_ = []
  hAch : ∀ i, (getN A.nodes_ i).changed = false
  hAg : ∀ i, i ≠ vNode E uv_idx → (getN A.nodes_ i).gamma = 0
  hgv : (getN A.nodes_ (vNode E uv_idx)).gamma =
    (getN A.nodes_ (uNode E uv_idx)).potential + wEdge E uv_idx -
    (getN A.nodes_ (vNode E uv_idx)).potential
  hgvneg : (getN A.nodes_ (vNode E uv_idx)).gamma < 0
  hle : (getN A.nodes_ (vNode E uv_idx)).last_edge = uv_idx
  hAq : A.gamma_q = [⟨vNode E uv_idx, (getN A.nodes_ (vNode E uv_idx)).gamma⟩]

/-- The chain fact for the `j`-th changed node (`j ≥ 1`): its `last_edge`
points into it from an earlier-changed node, with the exact potential
telescoping equation. -/
def chainRel (E : List Edge) (C : List Nat) (ns : List DifferenceLogicNode) (j : Nat) : Prop :=
  let c := C.getD j 0
  let le := (getN ns c).last_edge
  le < E.length ∧ (getE E le).to_ = c ∧
  (∃ k, k < j ∧ C.getD k 0 = (getE E le).from_) ∧
  (getN ns c).potential = (getN ns (getE E le).from_).potential + (getE E le).weight

/-- The pending fact for an unchanged node `i` with negative `gamma`: its
`last_edge` points into it from either (before the first pop) the new edge
itself, or a changed node, with the exact `gamma` equation. -/
def pendRel (E : List Edge) (uv_idx : Nat) (C : List Nat)
    (ns : List DifferenceLogicNode) (i : Nat) : Prop :=
  (i = vNode E uv_idx ∧ C = [] ∧ (getN ns i).last_edge = uv_idx ∧
    (getN ns i).gamma = (getN ns (uNode E uv_idx)).potential + wEdge E uv_idx -
      (getN ns i).potential) ∨
  (∃ le, (getN ns i).last_edge = le ∧ le < E.length ∧ (getE E le).to_ = i ∧
    (∃ k, k < C.length ∧ C.getD k 0 = (getE E le).from_) ∧
    (getN ns i).gamma = (getN ns (getE E le).from_).potential + (getE E le).weight -
      (getN ns i).potential)

/-- The main loop invariant of the relaxation loop, relative to the entry
state `A`. -/
structure Inv (E : List Edge) (uv_idx : Nat) (A g : DifferenceLogicGraph) : Prop where
  hE : g.edges_ = E
  hlen : g.nodes_.length = A.nodes_.length
  hout : ∀ i, (getN g.nodes_ i).outgoing = (getN A.nodes_ i).outgoing
  huch : (getN g.nodes_ (uNode E uv_idx)).changed = false
  hupot : (getN g.nodes_ (uNode E uv_idx)).potential = (getN A.nodes_ (uNode E uv_idx)).potential
  hpotU : ∀ i, (getN g.nodes_ i).changed = false →
    (getN g.nodes_ i).potential = (getN A.nodes_ i).potential
  hgle : ∀ i, (getN g.nodes_ i).gamma ≤ 0
  hch : ∀ i, (getN g.nodes_ i).changed = true →
    (getN g.nodes_ i).gamma = 0 ∧ i ∈ g.changed_ ∧
    (getN g.nodes_ i).potential ≤ (getN A.nodes_ i).potential
  hchl : ∀ i ∈ g.changed_, (getN g.nodes_ i).changed = true ∧ i < A.nodes_.length
  hnd : g.changed_.Nodup
  hhead : g.changed_ = [] ∨ ∃ tl, g.changed_ = vNode E uv_idx :: tl
  hinit : g.changed_ = [] → g.nodes_ = A.nodes_ ∧ g.gamma_q = A.gamma_q
  hq : ∀ e ∈ g.gamma_q, e.gamma < 0 ∧ e.node_idx < A.nodes_.length ∧
    ((getN g.nodes_ e.node_idx).changed = false → (getN g.nodes_ e.node_idx).gamma ≤ e.gamma)
  hwit : ∀ i, (getN g.nodes_ i).gamma < 0 → (getN g.nodes_ i).changed = false →
    (⟨i, (getN g.nodes_ i).gamma⟩ : NodeUpdate) ∈ g.gamma_q
  hF : ∀ s, ∀ eidx ∈ (getN A.nodes_ s).outgoing,
    (getN g.nodes_ (getE E eidx).to_).gamma ≤
      (getN g.nodes_ s).potential + (getE E eidx).weight -
      (getN g.nodes_ (getE E eidx).to_).potential
  hFuv : (getN g.nodes_ (vNode E uv_idx)).gamma ≤
    (getN g.nodes_ (uNode E uv_idx)).potential + wEdge E uv_idx -
    (getN g.nodes_ (vNode E uv_idx)).potential
  hM : ∀ i, (getN g.nodes_ i).changed = true → ∀ e ∈ g.gamma_q,
    (getN g.nodes_ i).potential - (getN A.nodes_ i).potential ≤ e.gamma
  hVfirst : (getN g.nodes_ (vNode E uv_idx)).changed = true →
    (getN g.nodes_ (vNode E uv_idx)).last_edge = uv_idx ∧
    (getN g.nodes_ (vNode E uv_idx)).potential =
      (getN g.nodes_ (uNode E uv_idx)).potential + wEdge E uv_idx
  hchain : ∀ j, 1 ≤ j → j < g.changed_.length → chainRel E g.changed_ g.nodes_ j
  hpend : ∀ i, (getN g.nodes_ i).changed = false → (getN g.nodes_ i).gamma < 0 →
    pendRel E uv_idx g.changed_ g.nodes_ i

/-- The invariant holding during the inner relaxation fold over the outgoing
edges of the freshly changed node `s` (popped with gamma `γs`): `todo` is the
unprocessed suffix, `ns`/`q` the current nodes and queue, `C` the changed list
including `s`. -/
structure MidInv (E : List Edge) (uv_idx : Nat) (A : DifferenceLogicGraph)
    (s : Nat) (γs : Int) (todo : List Nat)
    (ns : List DifferenceLogicNode) (q : List NodeUpdate) (C : List Nat) : Prop where
  htodo : ∀ eidx ∈ todo, eidx ∈ (getN A.nodes_ s).outgoing
  hslt : s < A.nodes_.length
  hsne : s ≠ uNode E uv_idx
  hγs : γs < 0
  hsch : (getN ns s).changed = true
  hspot : (getN ns s).potential = (getN A.nodes_ s).potential + γs
  htop : qtop? q = some ⟨s, γs⟩
  hlen : ns.length = A.nodes_.length
  hout : ∀ i, (getN ns i).outgoing = (getN A.nodes_ i).outgoing
  huch : (getN ns (uNode E uv_idx)).changed = false
  hupot : (getN ns (uNode E uv_idx)).potential = (getN A.nodes_ (uNode E uv_idx)).potential
  hpotU : ∀ i, (getN ns i).changed = false →
    (getN ns i).potential = (getN A.nodes_ i).potential
  hgle : ∀ i, (getN ns i).gamma ≤ 0
  hch : ∀ i, (getN ns i).changed = true →
    (getN ns i).gamma = 0 ∧ i ∈ C ∧ (getN ns i).potential ≤ (getN A.nodes_ i).potential
  hchl : ∀ i ∈ C, (getN ns i).changed = true ∧ i < A.nodes_.length
  hnd : C.Nodup
  hhead : ∃ tl, C = vNode E uv_idx :: tl
  hq : ∀ e ∈ q, e.gamma < 0 ∧ e.node_idx < A.nodes_.length ∧
    ((getN ns e.node_idx).changed = false → (getN ns e.node_idx).gamma ≤ e.gamma)
  hwit : ∀ i, (getN ns i).gamma < 0 → (getN ns i).changed = false →
    (⟨i, (getN ns i).gamma⟩ : NodeUpdate) ∈ q
  hFx : ∀ x, ∀ eidx ∈ (getN A.nodes_ x).outgoing, (x = s → eidx ∉ todo) →
    (getN ns (getE E eidx).to_).gamma ≤
      (getN ns x).potential + (getE E eidx).weight - (getN ns (getE E eidx).to_).potential
  hFuv : (getN ns (vNode E uv_idx)).gamma ≤
    (getN ns (uNode E uv_idx)).potential + wEdge E uv_idx -
    (getN ns (vNode E uv_idx)).potential
  hM : ∀ i, (getN ns i).changed = true → ∀ e ∈ q,
    (getN ns i).potential - (getN A.nodes_ i).potential ≤ e.gamma
  hVfirst : (getN ns (vNode E uv_idx)).changed = true →
    (getN ns (vNode E uv_idx)).last_edge = uv_idx ∧
    (getN ns (vNode E uv_idx)).potential =
      (getN ns (uNode E uv_idx)).potential + wEdge E uv_idx
  hchain : ∀ j, 1 ≤ j → j < C.length → chainRel E C ns j
  hpend : ∀ i, (getN ns i).changed = false → (getN ns i).gamma < 0 →
    pendRel E uv_idx C ns i

/-! ### Basic lemmas: node access and updates -/

theorem add_edge_eq (g : DifferenceLogicGraph) (uv_idx : Nat) :
    add_edge g uv_idx = (addCycle g uv_idx, addFinal g uv_idx) := rfl

theorem length_updN (ns : List DifferenceLogicNode) (i : Nat) (f) :
    (updN ns i f).length = ns.length := by
  simp [updN]

theorem getN_updN_self (ns : List DifferenceLogicNode) (i : Nat) (f)
    (h : i < ns.length) : getN (updN ns i f) i = f (getN ns i) := by
  simp only [getN, updN, List.getD_eq_getElem?_getD]
  rw [List.getElem?_set_self h]
  rfl

theorem getN_updN_ne (ns : List DifferenceLogicNode) (i j : Nat) (f)
    (h : i ≠ j) : getN (updN ns i f) j = getN ns j := by
  simp [getN, updN, List.getElem?_set_ne h]

theorem getN_updN (ns : List DifferenceLogicNode) (i j : Nat) (f) :
    getN (updN ns i f) j =
      if i = j ∧ i < ns.length then f (getN ns i) else getN ns j := by
  by_cases hij : i = j
  · subst hij
    by_cases hl : i < ns.length
    · simp [hl, getN_updN_self ns i f hl]
    · simp only [hl, and_false, if_false]
      simp only [getN, updN, List.getD_eq_getElem?_getD, List.getElem?_set, if_pos rfl,
        if_neg hl]
      rw [List.getElem?_eq_none (not_lt.mp hl)]
      rfl
  · simp [hij, getN_updN_ne ns i j f hij]

theorem getN_oor (ns : List DifferenceLogicNode) (i : Nat) (h : ns.length ≤ i) :
    getN ns i = newNode := by
  simp [getN, List.getElem?_eq_none h]

theorem length_ensure (ns : List DifferenceLogicNode) (k : Nat) :
    (ensure_index ns k).length = max ns.length (k + 1) := by
  unfold ensure_index
  split_ifs with h
  · simp
    omega
  · simp
    omega

theorem getN_ensure (ns : List DifferenceLogicNode) (k i : Nat) :
    getN (ensure_index ns k) i = getN ns i := by
  unfold ensure_index
  split_ifs with h
  · by_cases hi : i < ns.length
    · unfold getN
      simp only [List.getD_eq_getElem?_getD]
      rw [List.getElem?_append_left hi]
    · rw [getN_oor ns i (not_lt.mp hi)]
      by_cases hi2 : i < ns.length + (k + 1 - ns.length)
      · unfold getN
        simp only [List.getD_eq_getElem?_getD]
        rw [List.getElem?_append_right (not_lt.mp hi)]
        have h3 : i - ns.length < k + 1 - ns.length := by omega
        rw [List.getElem?_eq_getElem (by simpa using h3)]
        simp [List.getElem_replicate]
      · rw [getN_oor _ i (by simp; omega)]
  · rfl

/-! ### Field characterization of the `addInit` state -/

theorem addInit_edges (g : DifferenceLogicGraph) (uv_idx : Nat) :
    (addInit g uv_idx).edges_ = g.edges_ := rfl

theorem addInit_changed (g : DifferenceLogicGraph) (uv_idx : Nat) :
    (addInit g uv_idx).changed_ = g.changed_ := rfl

theorem potInit_ne_undef (g : DifferenceLogicGraph) (i : Nat) :
    potInit g i ≠ undefined_potential := by
  unfold potInit
  split_ifs with h
  · unfold undefined_potential
    norm_num
  · exact h

theorem node_eta_pot (x : DifferenceLogicNode) :
    ({ x with potential := x.potential }) = x := rfl

theorem nsEns_len (g : DifferenceLogicGraph) (uv_idx : Nat) :
    (nsEns g uv_idx).length =
      max g.nodes_.length (max (getE g.edges_ uv_idx).from_ (getE g.edges_ uv_idx).to_ + 1) :=
  length_ensure _ _

theorem getN_nsEns (g : DifferenceLogicGraph) (uv_idx i : Nat) :
    getN (nsEns g uv_idx) i = getN g.nodes_ i := getN_ensure _ _ _

theorem u_lt_nsEns (g : DifferenceLogicGraph) (uv_idx : Nat) :
    (getE g.edges_ uv_idx).from_ < (nsEns g uv_idx).length := by
  rw [nsEns_len]
  omega

theorem v_lt_nsEns (g : DifferenceLogicGraph) (uv_idx : Nat) :
    (getE g.edges_ uv_idx).to_ < (nsEns g uv_idx).length := by
  rw [nsEns_len]
  omega

/-- The effect of one conditional potential-initialization layer. -/
theorem getN_initLayer (ns : List DifferenceLogicNode) (j : Nat) (hj : j < ns.length) (i : Nat) :
    getN (if (getN ns j).potential = undefined_potential then
      updN ns j (fun x => { x with potential := 0 }) else ns) i =
    if i = j then { getN ns j with potential :=
      if (getN ns j).potential = undefined_potential then 0 else (getN ns j).potential }
    else getN ns i := by
  split_ifs with h1 h2 h2
  · subst h2
    rw [getN_updN_self _ _ _ hj]
  · rw [getN_updN_ne _ _ _ _ (fun h => h2 h.symm)]
  · subst h2
    exact (node_eta_pot _).symm
  · rfl

theorem nsPotU_len (g : DifferenceLogicGraph) (uv_idx : Nat) :
    (nsPotU g uv_idx).length = (nsEns g uv_idx).length := by
  unfold nsPotU
  split_ifs
  · exact length_updN _ _ _
  · rfl

theorem getN_nsPotU (g : DifferenceLogicGraph) (uv_idx i : Nat) :
    getN (nsPotU g uv_idx) i =
      if i = (getE g.edges_ uv_idx).from_ then
        { getN g.nodes_ (getE g.edges_ uv_idx).from_ with
          potential := potInit g (getE g.edges_ uv_idx).from_ }
      else getN g.nodes_ i := by
  unfold nsPotU
  rw [getN_initLayer _ _ (u_lt_nsEns g uv_idx)]
  simp only [getN_nsEns]
  rfl

theorem nsPotV_len (g : DifferenceLogicGraph) (uv_idx : Nat) :
    (nsPotV g uv_idx).length = (nsEns g uv_idx).length := by
  unfold nsPotV
  split_ifs
  · rw [length_updN, nsPotU_len]
  · exact nsPotU_len _ _

theorem v_lt_nsPotU (g : DifferenceLogicGraph) (uv_idx : Nat) :
    (getE g.edges_ uv_idx).to_ < (nsPotU g uv_idx).length := by
  rw [nsPotU_len]
  exact v_lt_nsEns g uv_idx

theorem pot_layer2 (g : DifferenceLogicGraph) (uv_idx : Nat) :
    (if (getN (nsPotU g uv_idx) (getE g.edges_ uv_idx).to_).potential = undefined_potential
      then 0 else (getN (nsPotU g uv_idx) (getE g.edges_ uv_idx).to_).potential) =
    potInit g (getE g.edges_ uv_idx).to_ := by
  rw [getN_nsPotU]
  split_ifs with h1 h2 h3
  · -- v = u and the already-initialized potential is the sentinel: impossible
    exact absurd h2 (potInit_ne_undef g _)
  · rw [h1]
  · unfold potInit
    rw [if_pos h3]
  · unfold potInit
    rw [if_neg h3]

theorem getN_nsPotV (g : DifferenceLogicGraph) (uv_idx i : Nat) :
    getN (nsPotV g uv_idx) i =
      if i = (getE g.edges_ uv_idx).to_ then
        { getN (nsPotU g uv_idx) (getE g.edges_ uv_idx).to_ with
          potential := potInit g (getE g.edges_ uv_idx).to_ }
      else getN (nsPotU g uv_idx) i := by
  unfold nsPotV
  rw [getN_initLayer _ _ (v_lt_nsPotU g uv_idx), pot_layer2]

theorem pot_nsPotV_u (g : DifferenceLogicGraph) (uv_idx : Nat) :
    (getN (nsPotV g uv_idx) (getE g.edges_ uv_idx).from_).potential =
      potInit g (getE g.edges_ uv_idx).from_ := by
  rw [getN_nsPotV]
  split_ifs with h1
  · show potInit g (getE g.edges_ uv_idx).to_ = _
    rw [h1]
  · rw [getN_nsPotU, if_pos rfl]

theorem pot_nsPotV_v (g : DifferenceLogicGraph) (uv_idx : Nat) :
    (getN (nsPotV g uv_idx) (getE g.edges_ uv_idx).to_).potential =
      potInit g (getE g.edges_ uv_idx).to_ := by
  rw [getN_nsPotV, if_pos rfl]

theorem gv_eq (g : DifferenceLogicGraph) (uv_idx : Nat) :
    (getN (nsPotV g uv_idx) (getE g.edges_ uv_idx).from_).potential +
      (getE g.edges_ uv_idx).weight -
      (getN (nsPotV g uv_idx) (getE g.edges_ uv_idx).to_).potential = addGv g uv_idx := by
  rw [pot_nsPotV_u, pot_nsPotV_v]
  rfl

theorem nsGam_len (g : DifferenceLogicGraph) (uv_idx : Nat) :
    (nsGam g uv_idx).length = (nsEns g uv_idx).length := by
  unfold nsGam
  rw [length_updN, nsPotV_len]

theorem v_lt_nsPotV (g : DifferenceLogicGraph) (uv_idx : Nat) :
    (getE g.edges_ uv_idx).to_ < (nsPotV g uv_idx).length := by
  rw [nsPotV_len]
  exact v_lt_nsEns g uv_idx

theorem getN_nsGam (g : DifferenceLogicGraph) (uv_idx i : Nat) :
    getN (nsGam g uv_idx) i =
      if i = (getE g.edges_ uv_idx).to_ then
        { getN (nsPotV g uv_idx) (getE g.edges_ uv_idx).to_ with gamma := addGv g uv_idx }
      else getN (nsPotV g uv_idx) i := by
  unfold nsGam
  split_ifs with h1
  · subst h1
    rw [getN_updN_self _ _ _ (v_lt_nsPotV g uv_idx), gv_eq]
  · rw [getN_updN_ne _ _ _ _ (fun h => h1 h.symm)]

theorem nsLast_len (g : DifferenceLogicGraph) (uv_idx : Nat) :
    (nsLast g uv_idx).length = (nsEns g uv_idx).length := by
  unfold nsLast
  split_ifs
  · rw [length_updN, nsGam_len]
  · exact nsGam_len _ _

theorem v_lt_nsGam (g : DifferenceLogicGraph) (uv_idx : Nat) :
    (getE g.edges_ uv_idx).to_ < (nsGam g uv_idx).length := by
  rw [nsGam_len]
  exact v_lt_nsEns g uv_idx

theorem getN_nsLast (g : DifferenceLogicGraph) (uv_idx i : Nat) :
    getN (nsLast g uv_idx) i =
      if i = (getE g.edges_ uv_idx).to_ ∧ addGv g uv_idx < 0 then
        { getN (nsGam g uv_idx) (getE g.edges_ uv_idx).to_ with last_edge := uv_idx }
      else getN (nsGam g uv_idx) i := by
  unfold nsLast
  rw [gv_eq]
  split_ifs with h1 h2 h2
  · rcases h2 with ⟨h2, _⟩
    subst h2
    rw [getN_updN_self _ _ _ (v_lt_nsGam g uv_idx)]
  · rcases not_and_or.mp h2 with h | h
    · exact getN_updN_ne _ _ _ _ (fun hh => h hh.symm)
    · exact absurd h1 h
  · exact absurd h2.2 h1
  · rfl

theorem addInit_len (g : DifferenceLogicGraph) (uv_idx : Nat) :
    (addInit g uv_idx).nodes_.length =
      max g.nodes_.length (max (getE g.edges_ uv_idx).from_ (getE g.edges_ uv_idx).to_ + 1) := by
  show (nsLast g uv_idx).length = _
  rw [nsLast_len, nsEns_len]

theorem addInit_q (g : DifferenceLogicGraph) (uv_idx : Nat) :
    (addInit g uv_idx).gamma_q =
      if addGv g uv_idx < 0 then
        qpush g.gamma_q ⟨(getE g.edges_ uv_idx).to_, addGv g uv_idx⟩
      else g.gamma_q := by
  show (if _ then _ else _) = _
  rw [gv_eq]

/-- The full field characterization of the nodes of `addInit`. -/
theorem addInit_getN (g : DifferenceLogicGraph) (uv_idx i : Nat) :
    getN (addInit g uv_idx).nodes_ i =
      { outgoing := (getN g.nodes_ i).outgoing,
        potential := if i = (getE g.edges_ uv_idx).from_ ∨ i = (getE g.edges_ uv_idx).to_ then
          potInit g i else (getN g.nodes_ i).potential,
        last_edge := if i = (getE g.edges_ uv_idx).to_ ∧ addGv g uv_idx < 0 then uv_idx
          else (getN g.nodes_ i).last_edge,
        gamma := if i = (getE g.edges_ uv_idx).to_ then addGv g uv_idx
          else (getN g.nodes_ i).gamma,
        changed := (getN g.nodes_ i).changed } := by
  show getN (nsLast g uv_idx) i = _
  simp only [getN_nsLast, getN_nsGam, getN_nsPotV, getN_nsPotU]
  by_cases hiv : i = (getE g.edges_ uv_idx).to_ <;>
    by_cases hiu : i = (getE g.edges_ uv_idx).from_ <;>
    by_cases hgv : addGv g uv_idx < 0 <;>
    by_cases hvu : (getE g.edges_ uv_idx).to_ = (getE g.edges_ uv_idx).from_ <;>
    simp_all <;> split_ifs <;> simp_all

/-! ### Basic lemmas: the queue model -/

theorem qtopAux_mem (b : NodeUpdate) (xs : List NodeUpdate) :
    qtopAux b xs ∈ b :: xs := by
  induction xs generalizing b with
  | nil => simp [qtopAux]
  | cons x xs ih =>
    rw [qtopAux]
    rcases List.mem_cons.mp (ih (if x.gamma < b.gamma then x else b)) with h | h
    · rw [h]
      by_cases hg : x.gamma < b.gamma <;> simp [hg]
    · simp [h]

theorem qtopAux_le (b : NodeUpdate) (xs : List NodeUpdate) :
    (qtopAux b xs).gamma ≤ b.gamma ∧ ∀ x ∈ xs, (qtopAux b xs).gamma ≤ x.gamma := by
  induction xs generalizing b with
  | nil => simp [qtopAux]
  | cons x xs ih =>
    by_cases hg : x.gamma < b.gamma
    · rw [qtopAux, if_pos hg]
      rcases ih x with ⟨h1, h2⟩
      refine ⟨le_trans h1 (le_of_lt hg), ?_⟩
      intro y hy
      rcases List.mem_cons.mp hy with rfl | hy
      · exact h1
      · exact h2 y hy
    · rw [qtopAux, if_neg hg]
      rcases ih b with ⟨h1, h2⟩
      refine ⟨h1, ?_⟩
      intro y hy
      rcases List.mem_cons.mp hy with rfl | hy
      · exact le_trans h1 (not_lt.mp hg)
      · exact h2 y hy

theorem qtop?_mem {q : List NodeUpdate} {m : NodeUpdate} (h : qtop? q = some m) :
    m ∈ q := by
  cases q with
  | nil => simp [qtop?] at h
  | cons x xs =>
    simp only [qtop?, Option.some.injEq] at h
    rw [← h]
    exact qtopAux_mem x xs

theorem qtop?_min {q : List NodeUpdate} {m : NodeUpdate} (h : qtop? q = some m) :
    ∀ x ∈ q, m.gamma ≤ x.gamma := by
  cases q with
  | nil => simp [qtop?] at h
  | cons x xs =>
    simp only [qtop?, Option.some.injEq] at h
    subst h
    intro y hy
    rcases List.mem_cons.mp hy with rfl | hy
    · exact (qtopAux_le y xs).1
    · exact (qtopAux_le x xs).2 y hy

theorem qtop?_eq_none {q : List NodeUpdate} (h : qtop? q = none) : q = [] := by
  cases q with
  | nil => rfl
  | cons x xs => simp [qtop?] at h

theorem qtop?_isSome {q : List NodeUpdate} (h : q ≠ []) : ∃ m, qtop? q = some m := by
  cases q with
  | nil => exact absurd rfl h
  | cons x xs => exact ⟨qtopAux x xs, rfl⟩

theorem qpop_eq {q : List NodeUpdate} {m : NodeUpdate} (h : qtop? q = some m) :
    qpop q = q.erase m := by
  simp [qpop, h]

theorem qpop_length {q : List NodeUpdate} (h : q ≠ []) :
    (qpop q).length + 1 = q.length := by
  obtain ⟨m, hm⟩ := qtop?_isSome h
  rw [qpop_eq hm, List.length_erase_of_mem (qtop?_mem hm)]
  exact Nat.succ_pred_eq_of_pos (List.length_pos.mpr h)

theorem mem_of_mem_qpop {q : List NodeUpdate} {x : NodeUpdate} (h : x ∈ qpop q) :
    x ∈ q := by
  unfold qpop at h
  cases hq : qtop? q with
  | none => rw [hq] at h; simp at h
  | some m => rw [hq] at h; exact List.mem_of_mem_erase h

theorem mem_qpop_of_ne {q : List NodeUpdate} {x m : NodeUpdate}
    (hm : qtop? q = some m) (hne : x ≠ m) (hx : x ∈ q) : x ∈ qpop q := by
  rw [qpop_eq hm]
  exact (List.mem_erase_of_ne hne).mpr hx

/-- Appending entries no smaller than the current minimum does not change
the top. -/
theorem qtopAux_append (b : NodeUpdate) (xs ys : List NodeUpdate) :
    qtopAux b (xs ++ ys) = qtopAux (qtopAux b xs) ys := by
  induction xs generalizing b with
  | nil => simp [qtopAux]
  | cons x xs ih => rw [List.cons_append, qtopAux, qtopAux, ih]

theorem qtopAux_of_ge (m : NodeUpdate) (ys : List NodeUpdate)
    (h : ∀ y ∈ ys, m.gamma ≤ y.gamma) : qtopAux m ys = m := by
  induction ys with
  | nil => rfl
  | cons y ys ih =>
    rw [qtopAux, if_neg (not_lt.mpr (h y (List.mem_cons_self y ys)))]
    exact ih fun z hz => h z (List.mem_cons_of_mem y hz)

theorem qtop?_append_of_ge {q : List NodeUpdate} {m : NodeUpdate} (ys : List NodeUpdate)
    (hm : qtop? q = some m) (h : ∀ y ∈ ys, m.gamma ≤ y.gamma) :
    qtop? (q ++ ys) = some m := by
  cases q with
  | nil => simp [qtop?] at hm
  | cons x xs =>
    simp only [qtop?, Option.some.injEq] at hm
    simp only [List.cons_append, qtop?, Option.some.injEq, qtopAux_append, hm]
    exact qtopAux_of_ge m ys h

theorem qpop_append_of_ge {q : List NodeUpdate} {m : NodeUpdate} (ys : List NodeUpdate)
    (hm : qtop? q = some m) (h : ∀ y ∈ ys, m.gamma ≤ y.gamma) :
    qpop (q ++ ys) = qpop q ++ ys := by
  rw [qpop_eq (qtop?_append_of_ge ys hm h), qpop_eq hm,
    List.erase_append_left ys (qtop?_mem hm)]

/-! ### Preservation of the invariant through the inner relaxation fold -/

/-- Discharging the head edge without touching the state: the fold invariant
shrinks from `eidx :: rest` to `rest` as soon as the reduced-weight bound for
`eidx` holds at the current state. -/
theorem MidInv.shrink {E : List Edge} {uv_idx : Nat} {A : DifferenceLogicGraph}
    {s : Nat} {γs : Int} {eidx : Nat} {rest : List Nat} {ns : List DifferenceLogicNode}
    {q : List NodeUpdate} {C : List Nat}
    (M : MidInv E uv_idx A s γs (eidx :: rest) ns q C)
    (hnew : (getN ns (getE E eidx).to_).gamma ≤
      (getN ns s).potential + (getE E eidx).weight - (getN ns (getE E eidx).to_).potential) :
    MidInv E uv_idx A s γs rest ns q C where
  htodo := fun e' he' => M.htodo e' (List.mem_cons_of_mem _ he')
  hslt := M.hslt
  hsne := M.hsne
  hγs := M.hγs
  hsch := M.hsch
  hspot := M.hspot
  htop := M.htop
  hlen := M.hlen
  hout := M.hout
  huch := M.huch
  hupot := M.hupot
  hpotU := M.hpotU
  hgle := M.hgle
  hch := M.hch
  hchl := M.hchl
  hnd := M.hnd
  hhead := M.hhead
  hq := M.hq
  hwit := M.hwit
  hFx := by
    intro x e' he' hx
    by_cases hxs : x = s
    · by_cases hee : e' = eidx
      · rw [hxs, hee]; exact hnew
      · refine M.hFx x e' he' (fun hxx hmem' => ?_)
        rcases List.mem_cons.mp hmem' with h | h
        · exact hee h
        · exact hx hxx h
    · exact M.hFx x e' he' (fun h => absurd h hxs)
  hFuv := M.hFuv
  hM := M.hM
  hVfirst := M.hVfirst
  hchain := M.hchain
  hpend := M.hpend

/-- Running the inner fold to completion preserves the invariant, ending with
an empty `todo` (hence the full feasibility bound `hFx`). -/
theorem relax_out_mid {E : List Edge} {uv_idx : Nat} {A : DifferenceLogicGraph}
    (St : Stat E uv_idx A) {s : Nat} {γs : Int} {C : List Nat} :
    ∀ (todo : List Nat) (ns : List DifferenceLogicNode) (q : List NodeUpdate),
    MidInv E uv_idx A s γs todo ns q C →
    MidInv E uv_idx A s γs [] (relax_out E s todo (ns, q)).1 (relax_out E s todo (ns, q)).2 C := by
  intro todo
  induction todo with
  | nil => intro ns q M; simpa [relax_out] using M
  | cons eidx rest ih =>
    intro ns q M
    have hmem : eidx ∈ (getN A.nodes_ s).outgoing := M.htodo eidx (List.mem_cons_self _ _)
    obtain ⟨helt, hefrom, hetlt, hfeas⟩ := St.hout s eidx hmem
    have hsmem : (⟨s, γs⟩ : NodeUpdate) ∈ q := qtop?_mem M.htop
    rw [relax_out]
    by_cases htch : (getN ns (getE E eidx).to_).changed = true
    · rw [if_pos htch]
      apply ih
      refine M.shrink ?_
      -- the target is already changed: its gamma is 0 and the reduced weight
      -- stays non-negative because its potential drop is bounded by γs
      have h0 : (getN ns (getE E eidx).to_).gamma = 0 := (M.hch _ htch).1
      have hδ : (getN ns (getE E eidx).to_).potential -
          (getN A.nodes_ (getE E eidx).to_).potential ≤ γs :=
        M.hM _ htch ⟨s, γs⟩ hsmem
      have hsp := M.hspot
      rw [h0]
      linarith
    · rw [if_neg htch]
      have htch' : (getN ns (getE E eidx).to_).changed = false := by
        simpa using htch
      by_cases himp : (getN ns s).potential + (getE E eidx).weight -
          (getN ns (getE E eidx).to_).potential < (getN ns (getE E eidx).to_).gamma
      · rw [if_pos himp]
        apply ih
        -- the relax branch: set gm on the target and push it
        have htA : (getE E eidx).to_ < A.nodes_.length := hetlt
        have htns : (getE E eidx).to_ < ns.length := by rw [M.hlen]; exact htA
        have htne : (getE E eidx).to_ ≠ s := by
          intro h
          rw [h, M.hsch] at htch'
          exact Bool.true_eq_false.mp htch'
        set t := (getE E eidx).to_ with htdef
        set gm := (getN ns s).potential + (getE E eidx).weight - (getN ns t).potential
          with hgmdef
        set ns' := updN ns t (fun x => { x with gamma := gm, last_edge := eidx }) with hnsdef
        have hNt : getN ns' t = { getN ns t with gamma := gm, last_edge := eidx } :=
          getN_updN_self ns t _ htns
        have hNo : ∀ j, j ≠ t → getN ns' j = getN ns j :=
          fun j hj => getN_updN_ne ns t j _ (Ne.symm hj)
        have hchsame : ∀ j, (getN ns' j).changed = (getN ns j).changed := by
          intro j
          by_cases hjt : j = t
          · subst hjt; rw [hNt]
          · rw [hNo j hjt]
        have hpotsame : ∀ j, (getN ns' j).potential = (getN ns j).potential := by
          intro j
          by_cases hjt : j = t
          · subst hjt; rw [hNt]
          · rw [hNo j hjt]
        have houtsame : ∀ j, (getN ns' j).outgoing = (getN ns j).outgoing := by
          intro j
          by_cases hjt : j = t
          · subst hjt; rw [hNt]
          · rw [hNo j hjt]
        have hgam : ∀ j, (getN ns' j).gamma = if j = t then gm else (getN ns j).gamma := by
          intro j
          by_cases hjt : j = t
          · subst hjt; rw [hNt, if_pos rfl]
          · rw [hNo j hjt, if_neg hjt]
        have hlastsame : ∀ j, j ≠ t → (getN ns' j).last_edge = (getN ns j).last_edge := by
          intro j hj; rw [hNo j hj]
        have hgmγ : γs ≤ gm := by
          have h1 := M.hspot
          have h2 := M.hpotU t htch'
          rw [hgmdef, h1, h2]
          linarith
        have hgm0 : gm < 0 := lt_of_lt_of_le himp (M.hgle t)
        -- the transport of reduced-weight bounds: potentials are unchanged
        -- and gammas only decrease
        have htrans : ∀ x e',
            (getN ns (getE E e').to_).gamma ≤ (getN ns x).potential +
              (getE E e').weight - (getN ns (getE E e').to_).potential →
            (getN ns' (getE E e').to_).gamma ≤ (getN ns' x).potential +
              (getE E e').weight - (getN ns' (getE E e').to_).potential := by
          intro x e' hold
          rw [hpotsame x, hpotsame (getE E e').to_, hgam (getE E e').to_]
          by_cases hto : (getE E e').to_ = t
          · rw [if_pos hto]
            calc gm ≤ (getN ns t).gamma := le_of_lt himp
            _ = (getN ns (getE E e').to_).gamma := by rw [hto]
            _ ≤ _ := hold
          · rw [if_neg hto]; exact hold
        exact {
          htodo := fun e' he' => M.htodo e' (List.mem_cons_of_mem _ he')
          hslt := M.hslt
          hsne := M.hsne
          hγs := M.hγs
          hsch := by rw [hNo s (Ne.symm htne)]; exact M.hsch
          hspot := by rw [hNo s (Ne.symm htne)]; exact M.hspot
          htop := by
            show qtop? (qpush q ⟨t, gm⟩) = _
            rw [qpush]
            refine qtop?_append_of_ge _ M.htop ?_
            intro y hy
            rcases List.mem_singleton.mp hy with rfl
            exact hgmγ
          hlen := by rw [hnsdef, length_updN]; exact M.hlen
          hout := fun i => by rw [houtsame i]; exact M.hout i
          huch := by rw [hchsame]; exact M.huch
          hupot := by rw [hpotsame]; exact M.hupot
          hpotU := fun i hi => by
            rw [hpotsame i]
            exact M.hpotU i (by rw [← hchsame i]; exact hi)
          hgle := fun i => by
            rw [hgam i]
            by_cases hit : i = t
            · rw [if_pos hit]; exact le_of_lt hgm0
            · rw [if_neg hit]; exact M.hgle i
          hch := fun i hi => by
            have hic : (getN ns i).changed = true := by rw [← hchsame i]; exact hi
            have hit : i ≠ t := by
              intro h; rw [h, htch'] at hic; exact Bool.false_eq_true.mp hic
            rw [hNo i hit]
            exact M.hch i hic
          hchl := fun i hi => ⟨by rw [hchsame i]; exact (M.hchl i hi).1, (M.hchl i hi).2⟩
          hnd := M.hnd
          hhead := M.hhead
          hq := fun e' he' => by
            rw [qpush] at he'
            rcases List.mem_append.mp he' with h | h
            · obtain ⟨h1, h2, h3⟩ := M.hq e' h
              refine ⟨h1, h2, fun hunch => ?_⟩
              rw [hgam e'.node_idx]
              by_cases hit : e'.node_idx = t
              · rw [if_pos hit]
                refine le_trans (le_of_lt himp) ?_
                rw [← hit]
                exact h3 (by rw [← hchsame]; exact hunch)
              · rw [if_neg hit]
                exact h3 (by rw [← hchsame]; exact hunch)
            · rcases List.mem_singleton.mp h with rfl
              refine ⟨hgm0, htA, fun _ => ?_⟩
              rw [hgam, if_pos rfl]
          hwit := fun i hg hc => by
            by_cases hit : i = t
            · have hgamt : (getN ns' t).gamma = gm := by rw [hgam t]; simp
              rw [hit, hgamt, qpush]
              exact List.mem_append_right _ (List.mem_singleton.mpr rfl)
            · have hg' : (getN ns i).gamma < 0 := by
                rw [hgam i, if_neg hit] at hg; exact hg
              have hc' : (getN ns i).changed = false := by rw [← hchsame i]; exact hc
              have := M.hwit i hg' hc'
              have heq : (getN ns' i).gamma = (getN ns i).gamma := by rw [hgam i, if_neg hit]
              rw [heq, qpush]
              exact List.mem_append_left _ this
          hFx := fun x e' he' hx => by
            by_cases hxs : x = s
            · by_cases hee : e' = eidx
              · have hgamt : (getN ns' t).gamma = gm := by rw [hgam t]; simp
                rw [hxs, hee, ← htdef, hgamt, hpotsame s, hpotsame t, hgmdef]
              · refine htrans x e' (M.hFx x e' he' (fun hxx hmem' => ?_))
                rcases List.mem_cons.mp hmem' with h | h
                · exact hee h
                · exact hx hxx h
            · exact htrans x e' (M.hFx x e' he' (fun h => absurd h hxs))
          hFuv := by
            rw [hpotsame, hpotsame, hgam]
            by_cases hvt : vNode E uv_idx = t
            · rw [if_pos hvt]
              refine le_trans (le_of_lt himp) ?_
              calc (getN ns t).gamma = (getN ns (vNode E uv_idx)).gamma := by rw [hvt]
              _ ≤ _ := M.hFuv
            · rw [if_neg hvt]; exact M.hFuv
          hM := fun i hi e' he' => by
            have hic : (getN ns i).changed = true := by rw [← hchsame i]; exact hi
            rw [hpotsame i]
            rw [qpush] at he'
            rcases List.mem_append.mp he' with h | h
            · exact M.hM i hic e' h
            · rcases List.mem_singleton.mp h with rfl
              exact le_trans (M.hM i hic ⟨s, γs⟩ hsmem) hgmγ
          hVfirst := fun hv => by
            have hvc : (getN ns (vNode E uv_idx)).changed = true := by
              rw [← hchsame]; exact hv
            have hvt : vNode E uv_idx ≠ t := by
              intro h; rw [h, htch'] at hvc; exact Bool.false_eq_true.mp hvc
            obtain ⟨h1, h2⟩ := M.hVfirst hvc
            exact ⟨by rw [hlastsame _ hvt]; exact h1,
              by rw [hpotsame, hpotsame]; exact h2⟩
          hchain := fun j h1 hjl => by
            have old := M.hchain j h1 hjl
            simp only [chainRel] at old ⊢
            obtain ⟨o1, o2, o3, o4⟩ := old
            have hcmem : C.getD j 0 ∈ C := by
              rw [List.getD_eq_getElem _ _ hjl]
              exact List.getElem_mem hjl
            have hcch : (getN ns (C.getD j 0)).changed = true := (M.hchl _ hcmem).1
            have hct : C.getD j 0 ≠ t := by
              intro h; rw [h, htch'] at hcch; exact Bool.false_eq_true.mp hcch
            rw [hlastsame _ hct]
            refine ⟨o1, o2, o3, ?_⟩
            rw [hpotsame, hpotsame]
            exact o4
          hpend := fun i hic hig => by
            by_cases hit : i = t
            · rw [hit]
              right
              refine ⟨eidx, ?_, helt, rfl, ?_, ?_⟩
              · rw [hNt]
              · obtain ⟨k, hk, hck⟩ := List.getElem_of_mem (M.hch s M.hsch).2.1
                exact ⟨k, hk, by rw [List.getD_eq_getElem _ _ hk, hck, hefrom]⟩
              · have hgamt : (getN ns' t).gamma = gm := by rw [hgam t]; simp
                rw [hgamt, hefrom, hpotsame s, hpotsame t]
            · have hic' : (getN ns i).changed = false := by rw [← hchsame i]; exact hic
              have hig' : (getN ns i).gamma < 0 := by
                rw [hgam i, if_neg hit] at hig; exact hig
              rcases M.hpend i hic' hig' with ⟨_, hC, _, _⟩ | ⟨le, hl1, hl2, hl3, hl4, hl5⟩
              · obtain ⟨tl, htl⟩ := M.hhead
                rw [htl] at hC
                exact absurd hC (List.cons_ne_nil _ _)
              · right
                refine ⟨le, ?_, hl2, hl3, hl4, ?_⟩
                · rw [hlastsame _ hit]; exact hl1
                · rw [hgam i, if_neg hit, hpotsame, hpotsame]
                  exact hl5 }
      · rw [if_neg himp]
        apply ih
        exact M.shrink (not_lt.mp himp)

/-- One iteration of the relaxation loop preserves the invariant. -/
theorem relax_step_inv {E : List Edge} {uv_idx : Nat} {A : DifferenceLogicGraph}
    (St : Stat E uv_idx A) {g : DifferenceLogicGraph}
    (I : Inv E uv_idx A g) (hne : g.gamma_q ≠ [])
    (hu0 : (getN g.nodes_ (uNode E uv_idx)).gamma = 0) :
    Inv E uv_idx A (relax_step g) := by
  obtain ⟨tp, htp⟩ := qtop?_isSome hne
  obtain ⟨s, γs⟩ := tp
  have htpm : (⟨s, γs⟩ : NodeUpdate) ∈ g.gamma_q := qtop?_mem htp
  have htγ : γs < 0 := (I.hq _ htpm).1
  have hslt : s < A.nodes_.length := (I.hq _ htpm).2.1
  have hbnd : (getN g.nodes_ s).changed = false → (getN g.nodes_ s).gamma ≤ γs :=
    (I.hq _ htpm).2.2
  simp only [relax_step, htp]
  by_cases hsch : (getN g.nodes_ s).changed = true
  · -- the popped node is already changed: only the queue shrinks
    rw [if_pos hsch]
    have hCne : g.changed_ ≠ [] := by
      intro hC
      have := (I.hch _ hsch).2.1
      rw [hC] at this
      exact List.not_mem_nil _ this
    exact {
      hE := I.hE
      hlen := I.hlen
      hout := I.hout
      huch := I.huch
      hupot := I.hupot
      hpotU := I.hpotU
      hgle := I.hgle
      hch := I.hch
      hchl := I.hchl
      hnd := I.hnd
      hhead := I.hhead
      hinit := fun h => absurd h hCne
      hq := fun e he => I.hq e (mem_of_mem_qpop he)
      hwit := fun i hg hc => by
        refine mem_qpop_of_ne htp ?_ (I.hwit i hg hc)
        intro h
        have : i = s := congrArg NodeUpdate.node_idx h
        rw [this, hsch] at hc
        exact Bool.true_eq_false.mp hc
      hF := I.hF
      hFuv := I.hFuv
      hM := fun i hi e he => I.hM i hi e (mem_of_mem_qpop he)
      hVfirst := I.hVfirst
      hchain := I.hchain
      hpend := I.hpend }
  · rw [if_neg hsch]
    have hsch' : (getN g.nodes_ s).changed = false := by simpa using hsch
    have hγle : (getN g.nodes_ s).gamma ≤ γs := hbnd hsch'
    have hγlt : (getN g.nodes_ s).gamma < 0 := lt_of_le_of_lt hγle htγ
    have hwitm : (⟨s, (getN g.nodes_ s).gamma⟩ : NodeUpdate) ∈ g.gamma_q :=
      I.hwit _ hγlt hsch'
    have hγge : γs ≤ (getN g.nodes_ s).gamma := qtop?_min htp _ hwitm
    have hγeq : (getN g.nodes_ s).gamma = γs := le_antisymm hγle hγge
    have hsns : s < g.nodes_.length := by rw [I.hlen]; exact hslt
    have hsne : s ≠ uNode E uv_idx := by
      intro h
      rw [h, hu0] at hγlt
      exact absurd hγlt (by norm_num)
    have hsnotC : s ∉ g.changed_ := by
      intro h
      have := (I.hchl _ h).1
      rw [hsch'] at this
      exact Bool.false_eq_true.mp this
    -- the first pop is the initial entry for v
    have hsv : g.changed_ = [] → s = vNode E uv_idx := by
      intro hC
      have h2 := I.hinit hC
      rw [h2.2, St.hAq] at htp
      have h3 : (⟨vNode E uv_idx, (getN A.nodes_ (vNode E uv_idx)).gamma⟩ : NodeUpdate) =
          ⟨s, γs⟩ := by
        simpa [qtop?, qtopAux] using htp
      exact (congrArg NodeUpdate.node_idx h3).symm
    set ns1 := updN g.nodes_ s
      (fun x => { x with potential := x.potential + x.gamma, gamma := 0, changed := true })
      with hns1def
    have hNs : getN ns1 s = { getN g.nodes_ s with
        potential := (getN g.nodes_ s).potential + (getN g.nodes_ s).gamma,
        gamma := 0, changed := true } := getN_updN_self g.nodes_ s _ hsns
    have hNo : ∀ j, j ≠ s → getN ns1 j = getN g.nodes_ j :=
      fun j hj => getN_updN_ne g.nodes_ s j _ (Ne.symm hj)
    have hchsame : ∀ j, j ≠ s → (getN ns1 j).changed = (getN g.nodes_ j).changed :=
      fun j hj => by rw [hNo j hj]
    have hpotsame : ∀ j, j ≠ s → (getN ns1 j).potential = (getN g.nodes_ j).potential :=
      fun j hj => by rw [hNo j hj]
    have hchs1 : (getN ns1 s).changed = true := by rw [hNs]
    have hgs1 : (getN ns1 s).gamma = 0 := by rw [hNs]
    have hpots1 : (getN ns1 s).potential =
        (getN g.nodes_ s).potential + (getN g.nodes_ s).gamma := by rw [hNs]
    have hCmem_ne : ∀ i ∈ g.changed_, i ≠ s := by
      intro i hi h
      rw [h] at hi
      exact hsnotC hi
    -- establish the fold invariant at the start of the inner loop
    have Mstart : MidInv E uv_idx A s γs ((getN g.nodes_ s).outgoing) ns1 g.gamma_q
        (g.changed_ ++ [s]) := {
      htodo := fun e he => by rw [← I.hout s]; exact he
      hslt := hslt
      hsne := hsne
      hγs := htγ
      hsch := hchs1
      hspot := by rw [hpots1, I.hpotU s hsch', hγeq]
      htop := htp
      hlen := by rw [hns1def, length_updN]; exact I.hlen
      hout := fun i => by
        by_cases his : i = s
        · rw [his, hNs]; exact I.hout s
        · rw [hNo i his]; exact I.hout i
      huch := by rw [hchsame _ (Ne.symm hsne)]; exact I.huch
      hupot := by rw [hpotsame _ (Ne.symm hsne)]; exact I.hupot
      hpotU := fun i hi => by
        have his : i ≠ s := by
          intro h; rw [h, hchs1] at hi; exact Bool.true_eq_false.mp hi
        rw [hpotsame i his]
        exact I.hpotU i (by rw [← hchsame i his]; exact hi)
      hgle := fun i => by
        by_cases his : i = s
        · rw [his, hgs1]
        · rw [hNo i his]; exact I.hgle i
      hch := fun i hi => by
        by_cases his : i = s
        · refine ⟨by rw [his, hgs1], by rw [his]; exact List.mem_append_right _ (by simp), ?_⟩
          rw [his, hpots1, I.hpotU s hsch']
          linarith
        · have hic : (getN g.nodes_ i).changed = true := by rw [← hchsame i his]; exact hi
          obtain ⟨o1, o2, o3⟩ := I.hch i hic
          exact ⟨by rw [hNo i his]; exact o1, List.mem_append_left _ o2,
            by rw [hNo i his]; exact o3⟩
      hchl := fun i hi => by
        rcases List.mem_append.mp hi with h | h
        · have := I.hchl i h
          exact ⟨by rw [hchsame i (hCmem_ne i h)]; exact this.1, this.2⟩
        · rcases List.mem_singleton.mp h with rfl
          exact ⟨hchs1, hslt⟩
      hnd := by
        rw [List.nodup_append]
        exact ⟨I.hnd, List.nodup_singleton _,
          fun a ha hb => (List.mem_singleton.mp hb ▸ hCmem_ne a ha) rfl⟩
      hhead := by
        rcases I.hhead with hC | ⟨tl, htl⟩
        · have h5 := hsv hC
          exact ⟨[], by rw [hC, List.nil_append, h5]⟩
        · exact ⟨tl ++ [s], by rw [htl, List.cons_append]⟩
      hq := fun e he => by
        obtain ⟨o1, o2, o3⟩ := I.hq e he
        refine ⟨o1, o2, fun hunch => ?_⟩
        have hes : e.node_idx ≠ s := by
          intro h; rw [h, hchs1] at hunch; exact Bool.true_eq_false.mp hunch
        rw [hNo _ hes]
        exact o3 (by rw [← hchsame _ hes]; exact hunch)
      hwit := fun i hg hc => by
        have his : i ≠ s := by
          intro h; rw [h, hchs1] at hc; exact Bool.true_eq_false.mp hc
        rw [hNo i his] at hg hc ⊢
        exact I.hwit i hg hc
      hFx := fun x eidx hmem hexc => by
        by_cases hxs : x = s
        · refine absurd ?_ (hexc hxs)
          rw [I.hout s, ← hxs]
          exact hmem
        · have hold := I.hF x eidx hmem
          rw [hpotsame x hxs]
          by_cases hts : (getE E eidx).to_ = s
          · rw [hts, hgs1, hpots1]
            have h6 : (getN g.nodes_ s).gamma ≤ (getN g.nodes_ x).potential +
                (getE E eidx).weight - (getN g.nodes_ s).potential := by
              rw [← hts]; exact hold
            linarith
          · rw [hNo _ hts]
            exact hold
      hFuv := by
        rw [hpotsame _ (Ne.symm hsne)]
        by_cases hvs : vNode E uv_idx = s
        · rw [hvs, hgs1, hpots1]
          have h6 := I.hFuv
          rw [hvs] at h6
          linarith
        · rw [hNo _ hvs]
          exact I.hFuv
      hM := fun i hi e he => by
        by_cases his : i = s
        · rw [his, hpots1, I.hpotU s hsch', hγeq]
          have h1 : γs ≤ e.gamma := qtop?_min htp e he
          linarith
        · have hic : (getN g.nodes_ i).changed = true := by rw [← hchsame i his]; exact hi
          rw [hpotsame i his]
          exact I.hM i hic e he
      hVfirst := fun hv => by
        by_cases hvs : vNode E uv_idx = s
        · -- s is v itself: the pending fact of v gives the entry facts
          have hCnil : g.changed_ = [] := by
            rcases I.hhead with hC0 | ⟨tl, htl⟩
            · exact hC0
            · exfalso
              have hvm : vNode E uv_idx ∈ g.changed_ := by
                rw [htl]; exact List.mem_cons_self _ _
              have h7 := (I.hchl _ hvm).1
              rw [hvs, hsch'] at h7
              exact Bool.false_eq_true.mp h7
          rcases I.hpend s hsch' hγlt with ⟨h1, hC, h3, h4⟩ |
            ⟨le, hl1, hl2, hl3, ⟨k, hk, hck⟩, hl5⟩
          · constructor
            · rw [hvs, hNs]
              exact h3
            · rw [hvs, hpots1, hpotsame _ (Ne.symm hsne), h4]
              ring
          · rw [hCnil] at hk
            exact absurd hk (Nat.not_lt_zero k)
        · have hvc : (getN g.nodes_ (vNode E uv_idx)).changed = true := by
            rw [← hchsame _ hvs]; exact hv
          obtain ⟨h1, h2⟩ := I.hVfirst hvc
          exact ⟨by rw [hNo _ hvs]; exact h1,
            by rw [hNo _ hvs, hpotsame _ (Ne.symm hsne)]; exact h2⟩
      hchain := fun j h1 hjl => by
        rw [List.length_append, List.length_singleton] at hjl
        by_cases hjold : j < g.changed_.length
        · -- an old chain entry, untouched
          have old := I.hchain j h1 hjold
          simp only [chainRel] at old ⊢
          obtain ⟨o1, o2, ⟨k, hk, hck⟩, o4⟩ := old
          have hgetd : (g.changed_ ++ [s]).getD j 0 = g.changed_.getD j 0 :=
            List.getD_append _ _ _ _ hjold
          have hcmem : g.changed_.getD j 0 ∈ g.changed_ := by
            rw [List.getD_eq_getElem _ _ hjold]
            exact List.getElem_mem hjold
          have hcs : g.changed_.getD j 0 ≠ s := hCmem_ne _ hcmem
          rw [hgetd, hNo _ hcs]
          have hkl : k < g.changed_.length := lt_trans hk hjold
          have hgetk : (g.changed_ ++ [s]).getD k 0 = g.changed_.getD k 0 :=
            List.getD_append _ _ _ _ hkl
          have hfmem : g.changed_.getD k 0 ∈ g.changed_ := by
            rw [List.getD_eq_getElem _ _ hkl]
            exact List.getElem_mem hkl
          have hfs : (getE E (getN g.nodes_ (g.changed_.getD j 0)).last_edge).from_ ≠ s := by
            rw [← hck]
            exact hCmem_ne _ hfmem
          refine ⟨o1, o2, ⟨k, hk, by rw [hgetk]; exact hck⟩, ?_⟩
          rw [hNo _ hfs]
          exact o4
        · -- the new chain entry for s, from its pending fact
          have hj : j = g.changed_.length := by omega
          have hgetd : (g.changed_ ++ [s]).getD j 0 = s := by
            rw [hj, List.getD_append_right _ _ _ _ (le_refl _)]
            simp
          rcases I.hpend s hsch' hγlt with ⟨hsv', hC, _, _⟩ |
            ⟨le, hl1, hl2, hl3, ⟨k, hk, hck⟩, hl5⟩
          · rw [hC] at hj
            simp at hj
            omega
          · simp only [chainRel]
            rw [hgetd, hNs]
            have hfmem : g.changed_.getD k 0 ∈ g.changed_ := by
              rw [List.getD_eq_getElem _ _ hk]
              exact List.getElem_mem hk
            have hfs : (getE E le).from_ ≠ s := by rw [← hck]; exact hCmem_ne _ hfmem
            have hgetk : (g.changed_ ++ [s]).getD k 0 = g.changed_.getD k 0 :=
              List.getD_append _ _ _ _ hk
            refine ⟨?_, ?_, ⟨k, by omega, ?_⟩, ?_⟩
            · show (getN g.nodes_ s).last_edge < E.length
              rw [hl1]; exact hl2
            · show (getE E (getN g.nodes_ s).last_edge).to_ = s
              rw [hl1]; exact hl3
            · show (g.changed_ ++ [s]).getD k 0 =
                (getE E (getN g.nodes_ s).last_edge).from_
              rw [hgetk, hl1]; exact hck
            · show (getN g.nodes_ s).potential + (getN g.nodes_ s).gamma =
                (getN ns1 (getE E (getN g.nodes_ s).last_edge).from_).potential +
                (getE E (getN g.nodes_ s).last_edge).weight
              rw [hl1, hNo _ hfs]
              linarith
      hpend := fun i hic hig => by
        have his : i ≠ s := by
          intro h; rw [h, hchs1] at hic; exact Bool.true_eq_false.mp hic
        rw [hNo i his] at hic hig
        rcases I.hpend i hic hig with ⟨hiv, hC, _, _⟩ |
          ⟨le, hl1, hl2, hl3, ⟨k, hk, hck⟩, hl5⟩
        · -- the only pre-pop pending node is v, and then s = v, contradiction
          exact absurd (by rw [hiv, hsv hC]) his
        · right
          have hfmem : g.changed_.getD k 0 ∈ g.changed_ := by
            rw [List.getD_eq_getElem _ _ hk]
            exact List.getElem_mem hk
          have hfs : (getE E le).from_ ≠ s := by rw [← hck]; exact hCmem_ne _ hfmem
          refine ⟨le, by rw [hNo i his]; exact hl1, hl2, hl3, ⟨k, ?_, ?_⟩, ?_⟩
          · rw [List.length_append, List.length_singleton]
            omega
          · rw [List.getD_append _ _ _ _ hk]
            exact hck
          · rw [hNo i his, hNo _ hfs]
            exact hl5 }
    have Mend := relax_out_mid St ((getN g.nodes_ s).outgoing) ns1 g.gamma_q Mstart
    rw [I.hE]
    exact {
      hE := rfl
      hlen := Mend.hlen
      hout := Mend.hout
      huch := Mend.huch
      hupot := Mend.hupot
      hpotU := Mend.hpotU
      hgle := Mend.hgle
      hch := Mend.hch
      hchl := Mend.hchl
      hnd := Mend.hnd
      hhead := Or.inr Mend.hhead
      hinit := fun h => absurd h (by simp)
      hq := fun e he => Mend.hq e (mem_of_mem_qpop he)
      hwit := fun i hg hc => by
        refine mem_qpop_of_ne Mend.htop ?_ (Mend.hwit i hg hc)
        intro h
        have : i = s := congrArg NodeUpdate.node_idx h
        rw [this, Mend.hsch] at hc
        exact Bool.true_eq_false.mp hc
      hF := fun x eidx hmem => Mend.hFx x eidx hmem (fun _ h => absurd h (List.not_mem_nil _))
      hFuv := Mend.hFuv
      hM := fun i hi e he => Mend.hM i hi e (mem_of_mem_qpop he)
      hVfirst := Mend.hVfirst
      hchain := Mend.hchain
      hpend := Mend.hpend }

/-! ### Termination of the relaxation loop -/

theorem updN_oor (ns : List DifferenceLogicNode) (i : Nat) (f)
    (h : ns.length ≤ i) : updN ns i f = ns := by
  unfold updN
  exact List.set_eq_of_length_le h

theorem map_sum_updN (m : DifferenceLogicNode → Nat) (f) :
    ∀ (ns : List DifferenceLogicNode) (i : Nat), i < ns.length →
    ((updN ns i f).map m).sum + m (getN ns i) = (ns.map m).sum + m (f (getN ns i)) := by
  intro ns
  induction ns with
  | nil => intro i hi; simp at hi
  | cons x xs ih =>
    intro i hi
    cases i with
    | zero =>
      show ((f (getN (x :: xs) 0) :: xs).map m).sum + m x = _
      simp [getN]
      omega
    | succ j =>
      have hj : j < xs.length := by simpa using hi
      have hupd : updN (x :: xs) (j + 1) f = x :: updN xs j f := by
        unfold updN
        rfl
      rw [hupd]
      have hget : getN (x :: xs) (j + 1) = getN xs j := by simp [getN]
      rw [hget]
      simp only [List.map_cons, List.sum_cons]
      have := ih j hj
      omega

theorem relax_out_frame (es : List Edge) (s : Nat) :
    ∀ (todo : List Nat) (ns : List DifferenceLogicNode) (q : List NodeUpdate),
    ((relax_out es s todo (ns, q)).1.map nodeMeasure).sum = (ns.map nodeMeasure).sum ∧
    (relax_out es s todo (ns, q)).2.length ≤ q.length + todo.length := by
  intro todo
  induction todo with
  | nil => intro ns q; simp [relax_out]
  | cons eidx rest ih =>
    intro ns q
    rw [relax_out]
    by_cases htch : (getN ns (getE es eidx).to_).changed = true
    · rw [if_pos htch]
      have h1 := ih ns q
      refine ⟨h1.1, le_trans h1.2 (by simp only [List.length_cons]; omega)⟩
    · rw [if_neg htch]
      by_cases himp : (getN ns s).potential + (getE es eidx).weight -
          (getN ns (getE es eidx).to_).potential < (getN ns (getE es eidx).to_).gamma
      · rw [if_pos himp]
        have hsum : ((updN ns (getE es eidx).to_ (fun x => { x with
            gamma := (getN ns s).potential + (getE es eidx).weight -
              (getN ns (getE es eidx).to_).potential, last_edge := eidx })).map
            nodeMeasure).sum = (ns.map nodeMeasure).sum := by
          by_cases ht : (getE es eidx).to_ < ns.length
          · have h2 := map_sum_updN nodeMeasure
              (fun x => { x with gamma := (getN ns s).potential + (getE es eidx).weight -
                (getN ns (getE es eidx).to_).potential, last_edge := eidx })
              ns (getE es eidx).to_ ht
            have hm : nodeMeasure ((fun x => { x with
                gamma := (getN ns s).potential + (getE es eidx).weight -
                  (getN ns (getE es eidx).to_).potential, last_edge := eidx })
                (getN ns (getE es eidx).to_)) = nodeMeasure (getN ns (getE es eidx).to_) := by
              simp [nodeMeasure]
            omega
          · rw [updN_oor ns _ _ (not_lt.mp ht)]
        have h1 := ih (updN ns (getE es eidx).to_ (fun x => { x with
            gamma := (getN ns s).potential + (getE es eidx).weight -
              (getN ns (getE es eidx).to_).potential, last_edge := eidx }))
          (qpush q ⟨(getE es eidx).to_, (getN ns s).potential + (getE es eidx).weight -
            (getN ns (getE es eidx).to_).potential⟩)
        refine ⟨by rw [h1.1, hsum], le_trans h1.2
          (by simp only [qpush, List.length_append, List.length_singleton,
            List.length_cons, List.length_nil]; omega)⟩
      · rw [if_neg himp]
        have h1 := ih ns q
        refine ⟨h1.1, le_trans h1.2 (by simp only [List.length_cons]; omega)⟩

theorem relax_out_queue_grow (es : List Edge) (s : Nat) :
    ∀ (todo : List Nat) (ns : List DifferenceLogicNode) (q : List NodeUpdate),
    q.length ≤ (relax_out es s todo (ns, q)).2.length := by
  intro todo
  induction todo with
  | nil => intro ns q; simp [relax_out]
  | cons eidx rest ih =>
    intro ns q
    rw [relax_out]
    by_cases htch : (getN ns (getE es eidx).to_).changed = true
    · rw [if_pos htch]; exact ih ns q
    · rw [if_neg htch]
      by_cases himp : (getN ns s).potential + (getE es eidx).weight -
          (getN ns (getE es eidx).to_).potential < (getN ns (getE es eidx).to_).gamma
      · rw [if_pos himp]
        refine le_trans ?_ (ih _ _)
        simp [qpush]
      · rw [if_neg himp]; exact ih ns q

theorem relax_step_measure (g : DifferenceLogicGraph) (hne : g.gamma_q ≠ []) :
    graphMeasure (relax_step g) < graphMeasure g := by
  obtain ⟨tp, htp⟩ := qtop?_isSome hne
  have hql := qpop_length hne
  simp only [relax_step, htp]
  by_cases hsch : (getN g.nodes_ tp.node_idx).changed = true
  · rw [if_pos hsch]
    unfold graphMeasure
    simp only
    omega
  · rw [if_neg hsch]
    unfold graphMeasure
    simp only
    have hframe := relax_out_frame g.edges_ tp.node_idx
      ((getN g.nodes_ tp.node_idx).outgoing)
      (updN g.nodes_ tp.node_idx (fun x =>
        { x with potential := x.potential + x.gamma, gamma := 0, changed := true }))
      g.gamma_q
    have hgrow := relax_out_queue_grow g.edges_ tp.node_idx
      ((getN g.nodes_ tp.node_idx).outgoing)
      (updN g.nodes_ tp.node_idx (fun x =>
        { x with potential := x.potential + x.gamma, gamma := 0, changed := true }))
      g.gamma_q
    have hqne : (relax_out g.edges_ tp.node_idx ((getN g.nodes_ tp.node_idx).outgoing)
        (updN g.nodes_ tp.node_idx (fun x =>
          { x with potential := x.potential + x.gamma, gamma := 0, changed := true }),
         g.gamma_q)).2 ≠ [] := by
      intro h
      rw [h] at hgrow
      simp at hgrow
      exact hne hgrow
    have hql2 := qpop_length hqne
    by_cases hlt : tp.node_idx < g.nodes_.length
    · have hsum := map_sum_updN nodeMeasure
        (fun x => { x with potential := x.potential + x.gamma, gamma := 0, changed := true })
        g.nodes_ tp.node_idx hlt
      have hold : nodeMeasure (getN g.nodes_ tp.node_idx) =
          1 + (getN g.nodes_ tp.node_idx).outgoing.length := by
        have hsch' : (getN g.nodes_ tp.node_idx).changed = false := by simpa using hsch
        simp [nodeMeasure, hsch']
      have hnew : nodeMeasure ((fun x =>
          { x with potential := x.potential + x.gamma, gamma := 0, changed := true })
          (getN g.nodes_ tp.node_idx)) = 0 := by
        simp [nodeMeasure]
      rw [hold, hnew] at hsum
      omega
    · have hns1 : updN g.nodes_ tp.node_idx (fun x =>
          { x with potential := x.potential + x.gamma, gamma := 0, changed := true }) =
          g.nodes_ := updN_oor _ _ _ (not_lt.mp hlt)
      have hout0 : (getN g.nodes_ tp.node_idx).outgoing = [] := by
        rw [getN_oor _ _ (not_lt.mp hlt)]
        rfl
      rw [hout0, hns1] at hql2 ⊢
      simp only [relax_out] at hql2 ⊢
      omega

/-- The relaxation loop preserves the invariant. -/
theorem relax_loop_inv {E : List Edge} {uv_idx : Nat} {A : DifferenceLogicGraph}
    (St : Stat E uv_idx A) :
    ∀ (fuel : Nat) (g : DifferenceLogicGraph), Inv E uv_idx A g →
    Inv E uv_idx A (relax_loop (uNode E uv_idx) fuel g) := by
  intro fuel
  induction fuel with
  | zero => intro g I; exact I
  | succ f ih =>
    intro g I
    rw [relax_loop]
    by_cases hc : g.gamma_q ≠ [] ∧ (getN g.nodes_ (uNode E uv_idx)).gamma = 0
    · rw [if_pos hc]
      exact ih _ (relax_step_inv St I hc.1 hc.2)
    · rw [if_neg hc]
      exact I

/-- With fuel at least the measure, the loop reaches a genuine exit: either
the queue is drained or `u`'s gamma became non-zero. -/
theorem relax_loop_exit (u_idx : Nat) :
    ∀ (fuel : Nat) (g : DifferenceLogicGraph), graphMeasure g ≤ fuel →
    (relax_loop u_idx fuel g).gamma_q = [] ∨
    (getN (relax_loop u_idx fuel g).nodes_ u_idx).gamma ≠ 0 := by
  intro fuel
  induction fuel with
  | zero =>
    intro g hg
    have h0 : g.gamma_q.length = 0 := by
      unfold graphMeasure at hg
      omega
    rw [relax_loop]
    exact Or.inl (List.length_eq_zero.mp h0)
  | succ f ih =>
    intro g hg
    rw [relax_loop]
    by_cases hc : g.gamma_q ≠ [] ∧ (getN g.nodes_ u_idx).gamma = 0
    · rw [if_pos hc]
      refine ih (relax_step g) ?_
      have := relax_step_measure g hc.1
      omega
    · rw [if_neg hc]
      rcases not_and_or.mp hc with h | h
      · exact Or.inl (not_not.mp h)
      · exact Or.inr h

/-! ### Establishing the invariant at loop entry -/

theorem sc_changed {g : DifferenceLogicGraph} (h : scratch_clean g) (i : Nat) :
    (getN g.nodes_ i).changed = false := by
  by_cases hi : i < g.nodes_.length
  · refine (h.1 _ ?_).2
    rw [getN, List.getD_eq_getElem _ _ hi]
    exact List.getElem_mem hi
  · rw [getN_oor _ _ (not_lt.mp hi)]
    rfl

theorem sc_gamma {g : DifferenceLogicGraph} (h : scratch_clean g) (i : Nat) :
    (getN g.nodes_ i).gamma = 0 := by
  by_cases hi : i < g.nodes_.length
  · refine (h.1 _ ?_).1
    rw [getN, List.getD_eq_getElem _ _ hi]
    exact List.getElem_mem hi
  · rw [getN_oor _ _ (not_lt.mp hi)]
    rfl

theorem potA_of_def {g : DifferenceLogicGraph} {uv_idx i : Nat}
    (h : (getN g.nodes_ i).potential ≠ undefined_potential) :
    (getN (addInit g uv_idx).nodes_ i).potential = (getN g.nodes_ i).potential := by
  rw [addInit_getN]
  show (if _ then potInit g i else _) = _
  split_ifs with h1
  · unfold potInit
    rw [if_neg h]
  · rfl

theorem outA_eq {g : DifferenceLogicGraph} {uv_idx : Nat} (i : Nat) :
    (getN (addInit g uv_idx).nodes_ i).outgoing = (getN g.nodes_ i).outgoing := by
  rw [addInit_getN]

theorem chA_eq {g : DifferenceLogicGraph} {uv_idx : Nat} (i : Nat) :
    (getN (addInit g uv_idx).nodes_ i).changed = (getN g.nodes_ i).changed := by
  rw [addInit_getN]

theorem gamA_eq {g : DifferenceLogicGraph} {uv_idx : Nat} {i : Nat}
    (h : i ≠ (getE g.edges_ uv_idx).to_) :
    (getN (addInit g uv_idx).nodes_ i).gamma = (getN g.nodes_ i).gamma := by
  rw [addInit_getN]
  show (if _ then _ else _) = _
  rw [if_neg h]

theorem gamA_v {g : DifferenceLogicGraph} {uv_idx : Nat} :
    (getN (addInit g uv_idx).nodes_ (getE g.edges_ uv_idx).to_).gamma = addGv g uv_idx := by
  rw [addInit_getN]
  show (if _ then _ else _) = _
  rw [if_pos rfl]

theorem potA_u {g : DifferenceLogicGraph} {uv_idx : Nat} :
    (getN (addInit g uv_idx).nodes_ (getE g.edges_ uv_idx).from_).potential =
      potInit g (getE g.edges_ uv_idx).from_ := by
  rw [addInit_getN]
  show (if _ then _ else _) = _
  rw [if_pos (Or.inl rfl)]

theorem potA_v {g : DifferenceLogicGraph} {uv_idx : Nat} :
    (getN (addInit g uv_idx).nodes_ (getE g.edges_ uv_idx).to_).potential =
      potInit g (getE g.edges_ uv_idx).to_ := by
  rw [addInit_getN]
  show (if _ then _ else _) = _
  rw [if_pos (Or.inr rfl)]

theorem Stat_addInit {g : DifferenceLogicGraph} {uv_idx : Nat}
    (hWF : WF g) (hidx : uv_idx < g.edges_.length) (hgv : addGv g uv_idx < 0) :
    Stat g.edges_ uv_idx (addInit g uv_idx) := by
  refine ⟨rfl, hidx, ?_, ?_, ?_, ?_, ?_, ?_, ?_, ?_, ?_, ?_⟩
  · show (getE g.edges_ uv_idx).from_ < _
    rw [addInit_len]
    omega
  · show (getE g.edges_ uv_idx).to_ < _
    rw [addInit_len]
    omega
  · intro i eidx hmem
    rw [outA_eq] at hmem
    by_cases hi : i < g.nodes_.length
    · obtain ⟨e1, e2, e3, e4, e5, e6⟩ := hWF.2 i (List.mem_range.mpr hi) eidx hmem
      refine ⟨e1, e2, ?_, ?_⟩
      · rw [addInit_len]
        omega
      · rw [potA_of_def e4, potA_of_def e5]
        exact e6
    · rw [getN_oor _ _ (not_lt.mp hi)] at hmem
      exact absurd hmem (List.not_mem_nil _)
  · show g.changed_ = []
    exact hWF.1.2.2
  · intro i
    rw [chA_eq]
    exact sc_changed hWF.1 i
  · intro i hi
    rw [gamA_eq hi]
    exact sc_gamma hWF.1 i
  · simp only [uNode, vNode, wEdge]
    rw [gamA_v, potA_u, potA_v]
    rfl
  · show (getN (addInit g uv_idx).nodes_ (getE g.edges_ uv_idx).to_).gamma < 0
    rw [gamA_v]
    exact hgv
  · show (getN (addInit g uv_idx).nodes_ (getE g.edges_ uv_idx).to_).last_edge = uv_idx
    rw [addInit_getN]
    show (if _ then _ else _) = _
    rw [if_pos ⟨rfl, hgv⟩]
  · simp only [vNode]
    rw [addInit_q, if_pos hgv, gamA_v]
    show qpush g.gamma_q _ = _
    rw [hWF.1.2.1]
    rfl

theorem Inv_addInit {g : DifferenceLogicGraph} {uv_idx : Nat}
    (hWF : WF g) (hidx : uv_idx < g.edges_.length) (hgv : addGv g uv_idx < 0) :
    Inv g.edges_ uv_idx (addInit g uv_idx) (addInit g uv_idx) := by
  have St := Stat_addInit hWF hidx hgv
  have hchA : ∀ i, (getN (addInit g uv_idx).nodes_ i).changed = false := St.hAch
  have hCe : (addInit g uv_idx).changed_ = [] := St.hAc
  have hgleA : ∀ i, (getN (addInit g uv_idx).nodes_ i).gamma ≤ 0 := by
    intro i
    by_cases hi : i = (getE g.edges_ uv_idx).to_
    · rw [hi]
      show (getN (addInit g uv_idx).nodes_ (getE g.edges_ uv_idx).to_).gamma ≤ 0
      rw [gamA_v]
      exact le_of_lt hgv
    · rw [St.hAg i hi]
  refine ⟨rfl, rfl, fun i => rfl, hchA _, rfl, fun i _ => rfl, hgleA, ?_, ?_, ?_, ?_, ?_, ?_,
    ?_, ?_, ?_, ?_, ?_, ?_, ?_⟩
  · intro i hi
    rw [hchA i] at hi
    exact absurd hi (by norm_num)
  · intro i hi
    rw [hCe] at hi
    exact absurd hi (List.not_mem_nil _)
  · rw [hCe]
    exact List.nodup_nil
  · exact Or.inl hCe
  · exact fun _ => ⟨rfl, rfl⟩
  · intro e he
    rw [St.hAq] at he
    rcases List.mem_singleton.mp he with rfl
    exact ⟨St.hgvneg, St.hvlt, fun _ => le_refl _⟩
  · intro i hg hc
    rw [St.hAq]
    by_cases hi : i = (getE g.edges_ uv_idx).to_
    · rw [hi]
      exact List.mem_singleton.mpr rfl
    · rw [St.hAg i hi] at hg
      exact absurd hg (by norm_num)
  · intro x eidx hmem
    exact le_trans (hgleA _) ((St.hout x eidx hmem).2.2.2)
  · show (getN (addInit g uv_idx).nodes_ (getE g.edges_ uv_idx).to_).gamma ≤ _
    exact le_of_eq St.hgv
  · intro i hi
    rw [hchA i] at hi
    exact absurd hi (by norm_num)
  · intro hv
    rw [hchA _] at hv
    exact absurd hv (by norm_num)
  · intro j h1 hjl
    rw [hCe] at hjl
    simp at hjl
  · intro i hic hig
    by_cases hi : i = (getE g.edges_ uv_idx).to_
    · left
      refine ⟨hi, hCe, ?_, ?_⟩
      · rw [hi]
        exact St.hle
      · rw [hi]
        exact St.hgv
    · rw [St.hAg i hi] at hig
      exact absurd hig (by norm_num)

/-- The invariant at exit of the relaxation loop of `add_edge`. -/
theorem addLoop_inv {g : DifferenceLogicGraph} {uv_idx : Nat}
    (hWF : WF g) (hidx : uv_idx < g.edges_.length) (hgv : addGv g uv_idx < 0) :
    Inv g.edges_ uv_idx (addInit g uv_idx) (addLoop g uv_idx) :=
  relax_loop_inv (Stat_addInit hWF hidx hgv) _ _ (Inv_addInit hWF hidx hgv)

/-- The loop exits genuinely: queue drained or `u.gamma` non-zero. -/
theorem addLoop_exit (g : DifferenceLogicGraph) (uv_idx : Nat) :
    (addLoop g uv_idx).gamma_q = [] ∨
    (getN (addLoop g uv_idx).nodes_ (getE g.edges_ uv_idx).from_).gamma ≠ 0 :=
  relax_loop_exit _ _ _ (le_refl _)

theorem relax_loop_empty (u_idx fuel : Nat) (g : DifferenceLogicGraph)
    (h : g.gamma_q = []) : relax_loop u_idx fuel g = g := by
  cases fuel with
  | zero => rfl
  | succ f =>
    rw [relax_loop]
    simp [h]

/-- When the new edge needs no relaxation, the loop is a no-op. -/
theorem addLoop_of_nonneg {g : DifferenceLogicGraph} {uv_idx : Nat}
    (hWF : WF g) (h : ¬ addGv g uv_idx < 0) : addLoop g uv_idx = addInit g uv_idx := by
  unfold addLoop
  refine relax_loop_empty _ _ _ ?_
  rw [addInit_q, if_neg h]
  exact hWF.1.2.1

/-! ### The cleanup phase -/

theorem getN_updN_keeps (ns : List DifferenceLogicNode) (j i : Nat)
    (f : DifferenceLogicNode → DifferenceLogicNode)
    (hout : ∀ x, (f x).outgoing = x.outgoing)
    (hpot : ∀ x, (f x).potential = x.potential)
    (hle : ∀ x, (f x).last_edge = x.last_edge) :
    (getN (updN ns j f) i).outgoing = (getN ns i).outgoing ∧
    (getN (updN ns j f) i).potential = (getN ns i).potential ∧
    (getN (updN ns j f) i).last_edge = (getN ns i).last_edge := by
  rw [getN_updN]
  split_ifs with h
  · rcases h with ⟨h1, _⟩
    rw [hout, hpot, hle, h1]
    exact ⟨rfl, rfl, rfl⟩
  · exact ⟨rfl, rfl, rfl⟩

theorem gamma_updN0 (ns : List DifferenceLogicNode) (j : Nat) :
    (getN (updN ns j (fun x => { x with gamma := 0 })) j).gamma = 0 := by
  by_cases h : j < ns.length
  · rw [getN_updN_self _ _ _ h]
  · rw [updN_oor _ _ _ (not_lt.mp h), getN_oor _ _ (not_lt.mp h)]
    rfl

theorem drain_keeps : ∀ (fuel : Nat) (q : List NodeUpdate) (ns : List DifferenceLogicNode)
    (i : Nat),
    (getN (drainFuel fuel q ns) i).outgoing = (getN ns i).outgoing ∧
    (getN (drainFuel fuel q ns) i).potential = (getN ns i).potential ∧
    (getN (drainFuel fuel q ns) i).last_edge = (getN ns i).last_edge ∧
    (getN (drainFuel fuel q ns) i).changed = (getN ns i).changed ∧
    ((getN (drainFuel fuel q ns) i).gamma = (getN ns i).gamma ∨
      (getN (drainFuel fuel q ns) i).gamma = 0) := by
  intro fuel
  induction fuel with
  | zero => intro q ns i; exact ⟨rfl, rfl, rfl, rfl, Or.inl rfl⟩
  | succ f ih =>
    intro q ns i
    rw [drainFuel]
    cases hq : qtop? q with
    | none => exact ⟨rfl, rfl, rfl, rfl, Or.inl rfl⟩
    | some tp =>
      have step : ∀ j, (getN (updN ns tp.node_idx (fun x => { x with gamma := 0 })) j).outgoing =
          (getN ns j).outgoing ∧
          (getN (updN ns tp.node_idx (fun x => { x with gamma := 0 })) j).potential =
          (getN ns j).potential ∧
          (getN (updN ns tp.node_idx (fun x => { x with gamma := 0 })) j).last_edge =
          (getN ns j).last_edge ∧
          (getN (updN ns tp.node_idx (fun x => { x with gamma := 0 })) j).changed =
          (getN ns j).changed ∧
          ((getN (updN ns tp.node_idx (fun x => { x with gamma := 0 })) j).gamma =
            (getN ns j).gamma ∨
           (getN (updN ns tp.node_idx (fun x => { x with gamma := 0 })) j).gamma = 0) := by
        intro j
        rw [getN_updN]
        split_ifs with h
        · rcases h with ⟨h1, _⟩
          rw [h1]
          exact ⟨rfl, rfl, rfl, rfl, Or.inr rfl⟩
        · exact ⟨rfl, rfl, rfl, rfl, Or.inl rfl⟩
      obtain ⟨s1, s2, s3, s4, s5⟩ := step i
      obtain ⟨r1, r2, r3, r4, r5⟩ := ih (qpop q) (updN ns tp.node_idx
        (fun x => { x with gamma := 0 })) i
      refine ⟨by rw [r1, s1], by rw [r2, s2], by rw [r3, s3], by rw [r4, s4], ?_⟩
      rcases r5 with r5 | r5
      · rcases s5 with s5 | s5
        · exact Or.inl (by rw [r5, s5])
        · exact Or.inr (by rw [r5, s5])
      · exact Or.inr r5

theorem drain_zero : ∀ (fuel : Nat) (q : List NodeUpdate) (ns : List DifferenceLogicNode),
    q.length ≤ fuel → ∀ e ∈ q, (getN (drainFuel fuel q ns) e.node_idx).gamma = 0 := by
  intro fuel
  induction fuel with
  | zero =>
    intro q ns hlen e he
    have : q = [] := List.length_eq_zero.mp (by omega)
    rw [this] at he
    exact absurd he (List.not_mem_nil _)
  | succ f ih =>
    intro q ns hlen e he
    have hne : q ≠ [] := fun h => by rw [h] at he; exact List.not_mem_nil _ he
    obtain ⟨tp, htp⟩ := qtop?_isSome hne
    rw [drainFuel, htp]
    have hql := qpop_length hne
    by_cases hmem : e ∈ qpop q
    · exact ih (qpop q) _ (by omega) e hmem
    · have hetp : e = tp := by
        by_contra hne2
        exact hmem (mem_qpop_of_ne htp hne2 he)
      subst hetp
      have h0 : (getN (updN ns e.node_idx (fun x => { x with gamma := 0 }))
          e.node_idx).gamma = 0 := gamma_updN0 ns e.node_idx
      rcases (drain_keeps f (qpop q) (updN ns e.node_idx (fun x => { x with gamma := 0 }))
        e.node_idx).2.2.2.2 with h | h
      · rw [h, h0]
      · exact h

theorem drain_len : ∀ (fuel : Nat) (q : List NodeUpdate) (ns : List DifferenceLogicNode),
    (drainFuel fuel q ns).length = ns.length := by
  intro fuel
  induction fuel with
  | zero => intro q ns; rfl
  | succ f ih =>
    intro q ns
    rw [drainFuel]
    cases hq : qtop? q with
    | none => rfl
    | some tp => rw [ih, length_updN]

theorem clear_keeps : ∀ (C : List Nat) (ns : List DifferenceLogicNode) (i : Nat),
    (getN (C.foldl (fun acc j => updN acc j (fun x => { x with changed := false })) ns) i).outgoing
      = (getN ns i).outgoing ∧
    (getN (C.foldl (fun acc j => updN acc j (fun x => { x with changed := false })) ns) i).potential
      = (getN ns i).potential ∧
    (getN (C.foldl (fun acc j => updN acc j (fun x => { x with changed := false })) ns) i).last_edge
      = (getN ns i).last_edge ∧
    (getN (C.foldl (fun acc j => updN acc j (fun x => { x with changed := false })) ns) i).gamma
      = (getN ns i).gamma ∧
    ((getN (C.foldl (fun acc j => updN acc j (fun x => { x with changed := false })) ns) i).changed
      = (getN ns i).changed ∨
     (getN (C.foldl (fun acc j => updN acc j (fun x => { x with changed := false })) ns) i).changed
      = false) := by
  intro C
  induction C with
  | nil => intro ns i; exact ⟨rfl, rfl, rfl, rfl, Or.inl rfl⟩
  | cons c C' ih =>
    intro ns i
    rw [List.foldl_cons]
    have step : ∀ j, (getN (updN ns c (fun x => { x with changed := false })) j).outgoing =
        (getN ns j).outgoing ∧
        (getN (updN ns c (fun x => { x with changed := false })) j).potential =
        (getN ns j).potential ∧
        (getN (updN ns c (fun x => { x with changed := false })) j).last_edge =
        (getN ns j).last_edge ∧
        (getN (updN ns c (fun x => { x with changed := false })) j).gamma = (getN ns j).gamma ∧
        ((getN (updN ns c (fun x => { x with changed := false })) j).changed =
          (getN ns j).changed ∨
         (getN (updN ns c (fun x => { x with changed := false })) j).changed = false) := by
      intro j
      rw [getN_updN]
      split_ifs with h
      · rcases h with ⟨h1, _⟩
        rw [h1]
        exact ⟨rfl, rfl, rfl, rfl, Or.inr rfl⟩
      · exact ⟨rfl, rfl, rfl, rfl, Or.inl rfl⟩
    obtain ⟨s1, s2, s3, s4, s5⟩ := step i
    obtain ⟨r1, r2, r3, r4, r5⟩ := ih (updN ns c (fun x => { x with changed := false })) i
    refine ⟨by rw [r1, s1], by rw [r2, s2], by rw [r3, s3], by rw [r4, s4], ?_⟩
    rcases r5 with r5 | r5
    · rcases s5 with s5 | s5
      · exact Or.inl (by rw [r5, s5])
      · exact Or.inr (by rw [r5, s5])
    · exact Or.inr r5

theorem changed_updNf (ns : List DifferenceLogicNode) (j : Nat) :
    (getN (updN ns j (fun x => { x with changed := false })) j).changed = false := by
  by_cases h : j < ns.length
  · rw [getN_updN_self _ _ _ h]
  · rw [updN_oor _ _ _ (not_lt.mp h), getN_oor _ _ (not_lt.mp h)]
    rfl

theorem clear_mem : ∀ (C : List Nat) (ns : List DifferenceLogicNode) (i : Nat), i ∈ C →
    (getN (C.foldl (fun acc j => updN acc j (fun x => { x with changed := false })) ns) i).changed
      = false := by
  intro C
  induction C with
  | nil => intro ns i hi; exact absurd hi (List.not_mem_nil _)
  | cons c C' ih =>
    intro ns i hi
    rw [List.foldl_cons]
    rcases List.mem_cons.mp hi with rfl | hi
    · rcases (clear_keeps C' (updN ns i (fun x => { x with changed := false })) i).2.2.2.2
        with h | h
      · rw [h, changed_updNf]
      · exact h
    · exact ih _ i hi

theorem clear_len : ∀ (C : List Nat) (ns : List DifferenceLogicNode),
    (C.foldl (fun acc j => updN acc j (fun x => { x with changed := false })) ns).length =
    ns.length := by
  intro C
  induction C with
  | nil => intro ns; rfl
  | cons c C' ih =>
    intro ns
    rw [List.foldl_cons, ih, length_updN]

/-! ### Characterization of the final state of `add_edge` -/

theorem pot_updN (f : DifferenceLogicNode → DifferenceLogicNode)
    (h : ∀ x, (f x).potential = x.potential) (ns : List DifferenceLogicNode) (j i : Nat) :
    (getN (updN ns j f) i).potential = (getN ns i).potential := by
  rw [getN_updN]
  split_ifs with hc
  · rw [h, hc.1]
  · rfl

theorem le_updN (f : DifferenceLogicNode → DifferenceLogicNode)
    (h : ∀ x, (f x).last_edge = x.last_edge) (ns : List DifferenceLogicNode) (j i : Nat) :
    (getN (updN ns j f) i).last_edge = (getN ns i).last_edge := by
  rw [getN_updN]
  split_ifs with hc
  · rw [h, hc.1]
  · rfl

theorem out_updN (f : DifferenceLogicNode → DifferenceLogicNode)
    (h : ∀ x, (f x).outgoing = x.outgoing) (ns : List DifferenceLogicNode) (j i : Nat) :
    (getN (updN ns j f) i).outgoing = (getN ns i).outgoing := by
  rw [getN_updN]
  split_ifs with hc
  · rw [h, hc.1]
  · rfl

theorem ch_updN (f : DifferenceLogicNode → DifferenceLogicNode)
    (h : ∀ x, (f x).changed = x.changed) (ns : List DifferenceLogicNode) (j i : Nat) :
    (getN (updN ns j f) i).changed = (getN ns i).changed := by
  rw [getN_updN]
  split_ifs with hc
  · rw [h, hc.1]
  · rfl

theorem relax_step_edges (g : DifferenceLogicGraph) : (relax_step g).edges_ = g.edges_ := by
  rcases hq : qtop? g.gamma_q with _ | tp <;> simp only [relax_step, hq] <;> split_ifs <;> rfl

theorem relax_loop_edges (u_idx : Nat) :
    ∀ (fuel : Nat) (g : DifferenceLogicGraph), (relax_loop u_idx fuel g).edges_ = g.edges_ := by
  intro fuel
  induction fuel with
  | zero => intro g; rfl
  | succ f ih =>
    intro g
    rw [relax_loop]
    split_ifs
    · rw [ih, relax_step_edges]
    · rfl

theorem addLoop_edges (g : DifferenceLogicGraph) (uv_idx : Nat) :
    (addLoop g uv_idx).edges_ = g.edges_ := by
  unfold addLoop
  rw [relax_loop_edges]
  rfl

theorem addFinal_edges (g : DifferenceLogicGraph) (uv_idx : Nat) :
    (addFinal g uv_idx).edges_ = g.edges_ := by
  show (addLoop g uv_idx).edges_ = g.edges_
  exact addLoop_edges g uv_idx

theorem addFinal_q (g : DifferenceLogicGraph) (uv_idx : Nat) :
    (addFinal g uv_idx).gamma_q = [] := rfl

theorem addFinal_c (g : DifferenceLogicGraph) (uv_idx : Nat) :
    (addFinal g uv_idx).changed_ = [] := rfl

theorem addFinal_pot (g : DifferenceLogicGraph) (uv_idx i : Nat) :
    (getN (addFinal g uv_idx).nodes_ i).potential =
      (getN (addLoop g uv_idx).nodes_ i).potential := by
  unfold addFinal
  simp only
  rw [(clear_keeps _ _ _).2.1, (drain_keeps _ _ _ _).2.1, pot_updN (fun x => {x with gamma := 0}) (fun x => rfl)]
  split_ifs
  · rfl
  · exact pot_updN (fun x => {x with outgoing := x.outgoing ++ [uv_idx]}) (fun x => rfl) _ _ _

theorem addFinal_lastE (g : DifferenceLogicGraph) (uv_idx i : Nat) :
    (getN (addFinal g uv_idx).nodes_ i).last_edge =
      (getN (addLoop g uv_idx).nodes_ i).last_edge := by
  unfold addFinal
  simp only
  rw [(clear_keeps _ _ _).2.2.1, (drain_keeps _ _ _ _).2.2.1, le_updN (fun x => {x with gamma := 0}) (fun x => rfl)]
  split_ifs
  · rfl
  · exact le_updN (fun x => {x with outgoing := x.outgoing ++ [uv_idx]}) (fun x => rfl) _ _ _

theorem addFinal_out_cycle (g : DifferenceLogicGraph) (uv_idx : Nat)
    (h : (getN (addLoop g uv_idx).nodes_ (getE g.edges_ uv_idx).from_).gamma < 0) (i : Nat) :
    (getN (addFinal g uv_idx).nodes_ i).outgoing =
      (getN (addLoop g uv_idx).nodes_ i).outgoing := by
  unfold addFinal
  simp only
  rw [(clear_keeps _ _ _).1, (drain_keeps _ _ _ _).1, out_updN (fun x => {x with gamma := 0}) (fun x => rfl)]
  rw [if_pos h]

theorem addFinal_out_install_ne (g : DifferenceLogicGraph) (uv_idx : Nat)
    (h : ¬ (getN (addLoop g uv_idx).nodes_ (getE g.edges_ uv_idx).from_).gamma < 0)
    (i : Nat) (hi : i ≠ (getE g.edges_ uv_idx).from_) :
    (getN (addFinal g uv_idx).nodes_ i).outgoing =
      (getN (addLoop g uv_idx).nodes_ i).outgoing := by
  unfold addFinal
  simp only
  rw [(clear_keeps _ _ _).1, (drain_keeps _ _ _ _).1, out_updN (fun x => {x with gamma := 0}) (fun x => rfl)]
  rw [if_neg h, getN_updN_ne _ _ _ _ (fun hh => hi hh.symm)]

theorem addFinal_out_install_u (g : DifferenceLogicGraph) (uv_idx : Nat)
    (h : ¬ (getN (addLoop g uv_idx).nodes_ (getE g.edges_ uv_idx).from_).gamma < 0)
    (hu : (getE g.edges_ uv_idx).from_ < (addLoop g uv_idx).nodes_.length) :
    (getN (addFinal g uv_idx).nodes_ (getE g.edges_ uv_idx).from_).outgoing =
      (getN (addLoop g uv_idx).nodes_ (getE g.edges_ uv_idx).from_).outgoing ++ [uv_idx] := by
  unfold addFinal
  simp only
  rw [(clear_keeps _ _ _).1, (drain_keeps _ _ _ _).1, out_updN (fun x => {x with gamma := 0}) (fun x => rfl)]
  rw [if_neg h, getN_updN_self _ _ _ hu]

theorem addFinal_len (g : DifferenceLogicGraph) (uv_idx : Nat) :
    (addFinal g uv_idx).nodes_.length = (addLoop g uv_idx).nodes_.length := by
  unfold addFinal
  simp only
  rw [clear_len, drain_len, length_updN]
  split_ifs
  · rfl
  · exact length_updN _ _ _

/-! ### Exit analysis of the relaxation loop -/

theorem gam_updN (f : DifferenceLogicNode → DifferenceLogicNode)
    (h : ∀ x, (f x).gamma = x.gamma) (ns : List DifferenceLogicNode) (j i : Nat) :
    (getN (updN ns j f) i).gamma = (getN ns i).gamma := by
  rw [getN_updN]
  split_ifs with hc
  · rw [h, hc.1]
  · rfl

theorem forall_mem_getN (ns : List DifferenceLogicNode) (P : DifferenceLogicNode → Prop) :
    (∀ x ∈ ns, P x) ↔ ∀ i, i < ns.length → P (getN ns i) := by
  constructor
  · intro h i hi
    refine h _ ?_
    rw [getN, List.getD_eq_getElem _ _ hi]
    exact List.getElem_mem hi
  · intro h x hx
    obtain ⟨i, hi, hxe⟩ := List.mem_iff_getElem.mp hx
    have hh := h i hi
    rw [getN, List.getD_eq_getElem _ _ hi, hxe] at hh
    exact hh

/-- A node with a leftover non-zero `gamma` at loop exit is either the target
node `v` of the new edge or still recorded in the queue (so the cleanup drain
resets it). -/
theorem addLoop_gamma_source {g : DifferenceLogicGraph} {uv_idx : Nat}
    (hWF : WF g) (hidx : uv_idx < g.edges_.length) :
    ∀ i, (getN (addLoop g uv_idx).nodes_ i).gamma ≠ 0 →
      i = (getE g.edges_ uv_idx).to_ ∨
      (⟨i, (getN (addLoop g uv_idx).nodes_ i).gamma⟩ : NodeUpdate) ∈
        (addLoop g uv_idx).gamma_q := by
  intro i hg
  by_cases hgv : addGv g uv_idx < 0
  · have I := addLoop_inv hWF hidx hgv
    have hle := I.hgle i
    have hlt : (getN (addLoop g uv_idx).nodes_ i).gamma < 0 := lt_of_le_of_ne hle hg
    by_cases hc : (getN (addLoop g uv_idx).nodes_ i).changed = true
    · exact absurd (I.hch i hc).1 hg
    · exact Or.inr (I.hwit i hlt (by simpa using hc))
  · have heq := addLoop_of_nonneg hWF hgv
    rw [heq] at hg ⊢
    by_cases hv : i = (getE g.edges_ uv_idx).to_
    · exact Or.inl hv
    · rw [gamA_eq hv, sc_gamma hWF.1 i] at hg
      exact absurd rfl hg

/-- Every node still flagged `changed` at loop exit is recorded in `changed_`
(so the cleanup pass clears it). -/
theorem addLoop_changed_source {g : DifferenceLogicGraph} {uv_idx : Nat}
    (hWF : WF g) (hidx : uv_idx < g.edges_.length) :
    ∀ i, (getN (addLoop g uv_idx).nodes_ i).changed = true →
      i ∈ (addLoop g uv_idx).changed_ := by
  intro i hc
  by_cases hgv : addGv g uv_idx < 0
  · exact ((addLoop_inv hWF hidx hgv).hch i hc).2.1
  · rw [addLoop_of_nonneg hWF hgv, chA_eq, sc_changed hWF.1 i] at hc
    exact absurd hc (by norm_num)

set_option maxHeartbeats 1000000 in
theorem addFinal_gamma_zero {g : DifferenceLogicGraph} {uv_idx : Nat}
    (hWF : WF g) (hidx : uv_idx < g.edges_.length) (i : Nat) :
    (getN (addFinal g uv_idx).nodes_ i).gamma = 0 := by
  have ha := addLoop_gamma_source hWF hidx
  unfold addFinal
  simp only
  rw [(clear_keeps _ _ _).2.2.2.1]
  by_cases hv : i = (getE g.edges_ uv_idx).to_
  · rcases (drain_keeps _ _ _ i).2.2.2.2 with h | h
    · rw [h, hv]
      exact gamma_updN0 _ _
    · exact h
  · by_cases hg : (getN (addLoop g uv_idx).nodes_ i).gamma = 0
    · rcases (drain_keeps _ _ _ i).2.2.2.2 with h | h
      · rw [h, getN_updN_ne _ _ _ _ (fun hh => hv hh.symm)]
        split_ifs
        · exact hg
        · rw [gam_updN (fun x => { x with outgoing := x.outgoing ++ [uv_idx] })
            (fun x => rfl)]
          exact hg
      · exact h
    · rcases ha i hg with hv2 | hq
      · exact absurd hv2 hv
      · exact drain_zero (addLoop g uv_idx).gamma_q.length (addLoop g uv_idx).gamma_q _
          (le_refl _) _ hq

theorem addFinal_changed_false {g : DifferenceLogicGraph} {uv_idx : Nat}
    (hWF : WF g) (hidx : uv_idx < g.edges_.length) (i : Nat) :
    (getN (addFinal g uv_idx).nodes_ i).changed = false := by
  have hb := addLoop_changed_source hWF hidx
  unfold addFinal
  simp only
  by_cases hmem : i ∈ (addLoop g uv_idx).changed_
  · exact clear_mem _ _ _ hmem
  · have hgb : (getN (addLoop g uv_idx).nodes_ i).changed = false := by
      by_cases hc : (getN (addLoop g uv_idx).nodes_ i).changed = true
      · exact absurd (hb i hc) hmem
      · simpa using hc
    rcases (clear_keeps _ _ _).2.2.2.2 with h | h
    · rw [h, (drain_keeps _ _ _ _).2.2.2.1,
        ch_updN (fun x => { x with gamma := 0 }) (fun x => rfl)]
      split_ifs
      · exact hgb
      · rw [ch_updN (fun x => { x with outgoing := x.outgoing ++ [uv_idx] })
          (fun x => rfl)]
        exact hgb
    · exact h

/-- The cleanup phase at the end of `add_edge` leaves the scratch state clean
in every case. -/
theorem addFinal_scratch {g : DifferenceLogicGraph} {uv_idx : Nat}
    (hWF : WF g) (hidx : uv_idx < g.edges_.length) :
    scratch_clean (addFinal g uv_idx) := by
  refine ⟨?_, rfl, rfl⟩
  refine (forall_mem_getN _ _).mpr ?_
  intro i hi
  exact ⟨addFinal_gamma_zero hWF hidx i, addFinal_changed_false hWF hidx i⟩

/-- A negative `u.gamma` at exit can only come from a run that actually
relaxed, i.e. the new edge had negative reduced weight. -/
theorem cycle_hgv {g : DifferenceLogicGraph} {uv_idx : Nat} (hWF : WF g)
    (hcy : (getN (addLoop g uv_idx).nodes_ (getE g.edges_ uv_idx).from_).gamma < 0) :
    addGv g uv_idx < 0 := by
  by_contra hgv
  rw [addLoop_of_nonneg hWF hgv] at hcy
  by_cases huv : (getE g.edges_ uv_idx).from_ = (getE g.edges_ uv_idx).to_
  · rw [huv, gamA_v] at hcy
    exact hgv hcy
  · rw [gamA_eq huv, sc_gamma hWF.1 _] at hcy
    exact absurd hcy (lt_irrefl 0)

/-- In the install case (no negative cycle), all `gamma`s are zero at loop
exit and the queue is drained. -/
theorem install_gamma_zero {g : DifferenceLogicGraph} {uv_idx : Nat}
    (hWF : WF g) (hidx : uv_idx < g.edges_.length) (hgv : addGv g uv_idx < 0)
    (hni : ¬ (getN (addLoop g uv_idx).nodes_ (getE g.edges_ uv_idx).from_).gamma < 0) :
    (∀ i, (getN (addLoop g uv_idx).nodes_ i).gamma = 0) ∧
      (addLoop g uv_idx).gamma_q = [] := by
  have I := addLoop_inv hWF hidx hgv
  have h1 := I.hgle ((getE g.edges_ uv_idx).from_)
  have hu0 : (getN (addLoop g uv_idx).nodes_ (getE g.edges_ uv_idx).from_).gamma = 0 := by
    omega
  have hq : (addLoop g uv_idx).gamma_q = [] := by
    rcases addLoop_exit g uv_idx with h | h
    · exact h
    · exact absurd hu0 h
  refine ⟨?_, hq⟩
  intro i
  have h2 := I.hgle i
  by_cases hc : (getN (addLoop g uv_idx).nodes_ i).changed = true
  · exact (I.hch i hc).1
  · by_cases hg : (getN (addLoop g uv_idx).nodes_ i).gamma = 0
    · exact hg
    · have hlt : (getN (addLoop g uv_idx).nodes_ i).gamma < 0 := lt_of_le_of_ne h2 hg
      have hmem := I.hwit i hlt (by simpa using hc)
      rw [hq] at hmem
      exact absurd hmem (List.not_mem_nil _)

theorem collect_cycle_len (es : List Edge) (ns : List DifferenceLogicNode) (v_idx : Nat) :
    ∀ (fuel next : Nat) (acc : List Nat),
      acc.length ≤ (collect_cycle es ns v_idx fuel next acc).length := by
  intro fuel
  induction fuel with
  | zero => intro next acc; exact le_refl _
  | succ f ih =>
    intro next acc
    rw [collect_cycle]
    split_ifs
    · exact le_refl _
    · exact le_trans (by simp) (ih _ _)

theorem collect_cycle_ne (es : List Edge) (ns : List DifferenceLogicNode) (v_idx : Nat)
    (fuel next : Nat) (acc : List Nat) (hacc : acc ≠ []) :
    collect_cycle es ns v_idx fuel next acc ≠ [] := by
  intro hnil
  have hl := collect_cycle_len es ns v_idx fuel next acc
  rw [hnil] at hl
  simp only [List.length_nil, Nat.le_zero] at hl
  exact hacc (List.length_eq_zero.mp hl)

/-- `add_edge` reports a cycle exactly when the loop exited with negative
`u.gamma`. -/
theorem addCycle_ne_nil_iff (g : DifferenceLogicGraph) (uv_idx : Nat) :
    addCycle g uv_idx ≠ [] ↔
      (getN (addLoop g uv_idx).nodes_ (getE g.edges_ uv_idx).from_).gamma < 0 := by
  unfold addCycle
  simp only
  split_ifs with h
  · exact ⟨fun _ => h, fun _ => collect_cycle_ne _ _ _ _ _ _ (by simp)⟩
  · simp [h]

/-! ### The negative-cycle walk -/

theorem weightSum_nil (E : List Edge) : weightSum E [] = 0 := rfl

theorem weightSum_cons (E : List Edge) (e : Nat) (l : List Nat) :
    weightSum E (e :: l) = (getE E e).weight + weightSum E l := by
  simp [weightSum]

/-- Walking `last_edge` pointers from the `j`-th changed node reaches the
first changed node `v`, extending the accumulator by a reverse path whose
weight telescopes to the potential difference. -/
theorem walk_spec (E : List Edge) (ns : List DifferenceLogicNode) (C : List Nat) (v : Nat)
    (hC0 : C.getD 0 0 = v) (hnd : C.Nodup)
    (hchain : ∀ j, 1 ≤ j → j < C.length → chainRel E C ns j) :
    ∀ (fuel j : Nat), j < C.length → j + 1 ≤ fuel → ∀ acc,
      ∃ l, collect_cycle E ns v fuel (C.getD j 0) acc = acc ++ l ∧
        weightSum E l = (getN ns (C.getD j 0)).potential - (getN ns v).potential ∧
        revPath E (C.getD j 0) v l := by
  intro fuel
  induction fuel with
  | zero =>
    intro j hj hf acc
    omega
  | succ f ih =>
    intro j hj hf acc
    by_cases hj0 : j = 0
    · subst hj0
      refine ⟨[], ?_, by rw [weightSum_nil, hC0]; ring, ?_⟩
      · rw [collect_cycle, hC0, if_pos rfl, List.append_nil]
      · rw [hC0]
        exact rfl
    · have hch := hchain j (by omega) hj
      simp only [chainRel] at hch
      obtain ⟨hlt, hto, ⟨k, hk, hkc⟩, hpot⟩ := hch
      have hcv : ¬ v = C.getD j 0 := by
        intro he
        have h0l : 0 < C.length := by omega
        rw [List.getD_eq_getElem _ _ hj] at he
        rw [← hC0, List.getD_eq_getElem _ _ h0l] at he
        exact hj0 ((List.Nodup.getElem_inj_iff hnd).mp he.symm)
      obtain ⟨l', hl1, hl2, hl3⟩ := ih k (by omega) (by omega)
        (acc ++ [(getN ns (C.getD j 0)).last_edge])
      refine ⟨(getN ns (C.getD j 0)).last_edge :: l', ?_, ?_, ?_⟩
      · rw [collect_cycle, if_neg hcv]
        simp only
        rw [← hkc, hl1]
        simp
      · rw [weightSum_cons, hl2, hkc, hpot]
        ring
      · refine ⟨hto, ?_⟩
        rw [hkc] at hl3
        exact hl3

/-- The cycle returned by `add_edge` telescopes to `u.gamma` and is a closed
reverse path through `v`. -/
theorem addCycle_spec {g : DifferenceLogicGraph} {uv_idx : Nat}
    (hWF : WF g) (hidx : uv_idx < g.edges_.length)
    (hcy : (getN (addLoop g uv_idx).nodes_ (getE g.edges_ uv_idx).from_).gamma < 0) :
    weightSum g.edges_ (addCycle g uv_idx) =
      (getN (addLoop g uv_idx).nodes_ (getE g.edges_ uv_idx).from_).gamma ∧
    revPath g.edges_ (getE g.edges_ uv_idx).to_ (getE g.edges_ uv_idx).to_
      (addCycle g uv_idx) ∧
    addCycle g uv_idx ≠ [] := by
  have hgv := cycle_hgv hWF hcy
  have I := addLoop_inv hWF hidx hgv
  have hEeq := addLoop_edges g uv_idx
  have hACdef : addCycle g uv_idx =
      collect_cycle g.edges_ (addLoop g uv_idx).nodes_ (getE g.edges_ uv_idx).to_
        ((addLoop g uv_idx).changed_.length + 1)
        (getE g.edges_
          (getN (addLoop g uv_idx).nodes_ (getE g.edges_ uv_idx).to_).last_edge).from_
        [(getN (addLoop g uv_idx).nodes_ (getE g.edges_ uv_idx).to_).last_edge] := by
    rw [addCycle]
    rw [if_pos hcy, hEeq]
  have hhead := I.hhead
  simp only [vNode] at hhead
  rcases hhead with hC | ⟨tl, hC⟩
  · -- no node was ever popped: the new edge is a self-loop
    obtain ⟨hnodes, _⟩ := I.hinit hC
    have St := Stat_addInit hWF hidx hgv
    have hlev : (getN (addInit g uv_idx).nodes_ (getE g.edges_ uv_idx).to_).last_edge
        = uv_idx := by
      have h := St.hle
      simp only [vNode] at h
      exact h
    have huv : (getE g.edges_ uv_idx).from_ = (getE g.edges_ uv_idx).to_ := by
      by_contra hne
      rw [hnodes, gamA_eq hne, sc_gamma hWF.1 _] at hcy
      exact absurd hcy (lt_irrefl 0)
    rw [hC, hnodes, hlev] at hACdef
    simp only [List.length_nil] at hACdef
    rw [collect_cycle, if_pos huv.symm] at hACdef
    refine ⟨?_, ?_, ?_⟩
    · rw [hACdef, weightSum_cons, weightSum_nil, hnodes, huv, gamA_v]
      unfold addGv
      rw [huv]
      ring
    · rw [hACdef]
      exact ⟨rfl, huv⟩
    · rw [hACdef]
      simp
  · -- v was the first node popped; walk the chain of changed nodes
    have hvC : (getE g.edges_ uv_idx).to_ ∈ (addLoop g uv_idx).changed_ := by
      rw [hC]
      exact List.mem_cons_self _ _
    have hchv : (getN (addLoop g uv_idx).nodes_ (getE g.edges_ uv_idx).to_).changed
        = true := (I.hchl _ hvC).1
    have hVf := I.hVfirst hchv
    simp only [vNode, uNode, wEdge] at hVf
    have huch : (getN (addLoop g uv_idx).nodes_ (getE g.edges_ uv_idx).from_).changed
        = false := I.huch
    have huv : ¬ (getE g.edges_ uv_idx).from_ = (getE g.edges_ uv_idx).to_ := by
      intro he
      rw [← he, huch] at hchv
      exact absurd hchv (by norm_num)
    have hp := I.hpend _ huch hcy
    simp only [pendRel, vNode, uNode, wEdge] at hp
    rcases hp with ⟨hid, _, _, _⟩ | ⟨le, hleq, hlelt, hleto, ⟨k, hk, hkc⟩, hgam⟩
    · exact absurd hid huv
    · obtain ⟨l, hl1, hl2, hl3⟩ := walk_spec g.edges_ (addLoop g uv_idx).nodes_
        (addLoop g uv_idx).changed_ (getE g.edges_ uv_idx).to_
        (by rw [hC]; rfl) I.hnd I.hchain
        (addLoop g uv_idx).changed_.length k hk (by omega) [uv_idx, le]
      rw [hVf.1] at hACdef
      rw [collect_cycle, if_neg (fun he => huv he.symm)] at hACdef
      simp only at hACdef
      rw [hleq, ← hkc] at hACdef
      simp only [List.cons_append, List.nil_append] at hACdef
      rw [hl1] at hACdef
      simp only [List.cons_append, List.nil_append] at hACdef
      rw [hkc] at hl2 hl3
      refine ⟨?_, ?_, ?_⟩
      · rw [hACdef, weightSum_cons, weightSum_cons, hl2]
        have hVf2 := hVf.2
        omega
      · rw [hACdef]
        exact ⟨rfl, hleto, hl3⟩
      · rw [hACdef]
        simp

/-- Endpoint and adjacency facts of a reverse path. -/
theorem revPath_adj (E : List Edge) :
    ∀ (l : List Nat) (a b : Nat), revPath E a b l →
      (∀ i, i + 1 < l.length →
        (getE E (l.getD i 0)).from_ = (getE E (l.getD (i + 1) 0)).to_) ∧
      (l ≠ [] → (getE E (l.getD 0 0)).to_ = a ∧
        (getE E (l.getD (l.length - 1) 0)).from_ = b) := by
  intro l
  induction l with
  | nil =>
    intro a b h
    exact ⟨fun i hi => absurd hi (by simp), fun h' => absurd rfl h'⟩
  | cons e l' ih =>
    intro a b h
    obtain ⟨h1, h2⟩ := h
    obtain ⟨ihadj, ihend⟩ := ih (getE E e).from_ b h2
    constructor
    · intro i hi
      cases i with
      | zero =>
        have hl' : l' ≠ [] := by
          intro he
          rw [he] at hi
          simp at hi
        have hfst := (ihend hl').1
        simp only [List.getD_cons_zero, List.getD_cons_succ]
        exact hfst.symm
      | succ i' =>
        have hi' : i' + 1 < l'.length := by simpa using hi
        have hadj := ihadj i' hi'
        simpa using hadj
    · intro _
      refine ⟨by simpa using h1, ?_⟩
      by_cases hl' : l' = []
      · subst hl'
        simpa [revPath] using h2
      · have h0 : l'.length ≠ 0 := fun h => hl' (List.length_eq_zero.mp h)
        have hlen : (e :: l').length - 1 = (l'.length - 1) + 1 := by
          simp only [List.length_cons]
          omega
        rw [hlen, List.getD_cons_succ]
        exact (ihend hl').2

/-! ### Feasibility in the install case -/

/-- An edge already active before the call keeps a non-negative reduced
weight at the initialized potentials. -/
theorem old_edge_feasible_init {g : DifferenceLogicGraph} {uv_idx i eidx : Nat}
    (hWF : WF g) (hm : eidx ∈ (getN g.nodes_ i).outgoing) :
    0 ≤ (getN (addInit g uv_idx).nodes_ i).potential + (getE g.edges_ eidx).weight -
        (getN (addInit g uv_idx).nodes_ (getE g.edges_ eidx).to_).potential := by
  by_cases hi : i < g.nodes_.length
  · obtain ⟨e1, e2, e3, e4, e5, e6⟩ := hWF.2 i (List.mem_range.mpr hi) eidx hm
    rw [potA_of_def e4, potA_of_def e5]
    exact e6
  · rw [getN_oor _ _ (not_lt.mp hi)] at hm
    exact absurd hm (List.not_mem_nil _)

/-- When no negative cycle is reported, the final potentials witness
feasibility of every active edge, the new one included. -/
theorem addFinal_feasible {g : DifferenceLogicGraph} {uv_idx : Nat}
    (hWF : WF g) (hidx : uv_idx < g.edges_.length)
    (hni : ¬ (getN (addLoop g uv_idx).nodes_ (getE g.edges_ uv_idx).from_).gamma < 0) :
    Feasible (addFinal g uv_idx) := by
  intro i hi eidx hmem
  simp only [addFinal_edges, addFinal_pot]
  by_cases hgv : addGv g uv_idx < 0
  · have I := addLoop_inv hWF hidx hgv
    have hz := (install_gamma_zero hWF hidx hgv hni).1
    have hult : (getE g.edges_ uv_idx).from_ < (addLoop g uv_idx).nodes_.length := by
      have h1 := I.hlen
      have h2 := addInit_len g uv_idx
      omega
    have hFold : ∀ j, eidx ∈ (getN (addInit g uv_idx).nodes_ j).outgoing →
        0 ≤ (getN (addLoop g uv_idx).nodes_ j).potential + (getE g.edges_ eidx).weight -
          (getN (addLoop g uv_idx).nodes_ (getE g.edges_ eidx).to_).potential := by
      intro j hm
      have hF := I.hF j eidx hm
      have hzt := hz ((getE g.edges_ eidx).to_)
      omega
    by_cases hiu : i = (getE g.edges_ uv_idx).from_
    · rw [hiu, addFinal_out_install_u g uv_idx hni hult, I.hout] at hmem
      rcases List.mem_append.mp hmem with hm | hm
      · rw [hiu]
        exact hFold _ hm
      · have heidx : eidx = uv_idx := by simpa using hm
        rw [heidx]
        have hFuv := I.hFuv
        simp only [vNode, uNode, wEdge] at hFuv
        have hzv := hz ((getE g.edges_ uv_idx).to_)
        rw [hiu]
        omega
    · rw [addFinal_out_install_ne g uv_idx hni i hiu, I.hout] at hmem
      exact hFold _ hmem
  · have heq := addLoop_of_nonneg hWF hgv
    have hult : (getE g.edges_ uv_idx).from_ < (addLoop g uv_idx).nodes_.length := by
      rw [heq, addInit_len]
      omega
    by_cases hiu : i = (getE g.edges_ uv_idx).from_
    · rw [hiu, addFinal_out_install_u g uv_idx hni hult, heq] at hmem
      rcases List.mem_append.mp hmem with hm | hm
      · rw [outA_eq] at hm
        rw [hiu, heq]
        exact old_edge_feasible_init hWF hm
      · have heidx : eidx = uv_idx := by simpa using hm
        rw [heidx, hiu, heq]
        have hu : (getN (addInit g uv_idx).nodes_ (getE g.edges_ uv_idx).from_).potential
            = potInit g (getE g.edges_ uv_idx).from_ := potA_u
        have hv : (getN (addInit g uv_idx).nodes_ (getE g.edges_ uv_idx).to_).potential
            = potInit g (getE g.edges_ uv_idx).to_ := potA_v
        rw [hu, hv]
        unfold addGv at hgv
        omega
    · rw [addFinal_out_install_ne g uv_idx hni i hiu, heq, outA_eq] at hmem
      rw [heq]
      exact old_edge_feasible_init hWF hmem
/-! ### Projections of `add_edge` and fresh graphs -/

theorem add_edge_fst (g : DifferenceLogicGraph) (uv_idx : Nat) :
    (add_edge g uv_idx).1 = addCycle g uv_idx := rfl

theorem add_edge_snd (g : DifferenceLogicGraph) (uv_idx : Nat) :
    (add_edge g uv_idx).2 = addFinal g uv_idx := rfl

theorem WF_fresh (es : List Edge) : WF (freshGraph es) := by
  refine ⟨⟨?_, rfl, rfl⟩, ?_⟩
  · intro x hx
    exact absurd hx (List.not_mem_nil _)
  · intro i hi
    simp [freshGraph] at hi

theorem potInit_fresh (es : List Edge) (i : Nat) : potInit (freshGraph es) i = 0 := by
  unfold potInit
  split_ifs with h
  · rfl
  · exact absurd rfl h

theorem addGv_fresh (u v : Nat) (w l : Int) :
    addGv (freshGraph [⟨u, v, w, l⟩]) 0 = w := by
  unfold addGv
  rw [potInit_fresh, potInit_fresh]
  show (0 : Int) + w - 0 = w
  ring

/-- If `u.gamma` is already non-zero, the relaxation loop does nothing. -/
theorem relax_loop_stuck (u_idx fuel : Nat) (g : DifferenceLogicGraph)
    (h : (getN g.nodes_ u_idx).gamma ≠ 0) : relax_loop u_idx fuel g = g := by
  cases fuel with
  | zero => rfl
  | succ f =>
    rw [relax_loop, if_neg]
    intro hc
    exact h hc.2

theorem node_value_defined_iff (g : DifferenceLogicGraph) (i : Nat) :
    node_value_defined g i = true ↔
      (getN g.nodes_ i).potential ≠ undefined_potential := by
  simp [node_value_defined]

/-! ### The propagator adaptor: trail, table and conflict clause -/

theorem check_loop_trail (es : List Edge) (tbl : List (Int × Nat)) :
    ∀ (fuel : Nat) (st : DLState),
      ((check_loop es tbl fuel st).1).edge_trail = st.edge_trail := by
  intro fuel
  induction fuel with
  | zero => intro st; rfl
  | succ f ih =>
    intro st
    rw [check_loop]
    split_ifs
    · rcases hmat : (process_edges es st.dl_graph
          (edges_for tbl (st.edge_trail.getD st.propagated 0))).2 with _ | cl
      · simp only [hmat]
        rw [ih]
      · simp only [hmat]
    · rfl

theorem build_table_fst :
    ∀ (regs es : List Edge) (tbl : List (Int × Nat)),
      (regs.foldl (fun acc e => register_edge acc.1 acc.2 e) (es, tbl)).1 = es ++ regs := by
  intro regs
  induction regs with
  | nil =>
    intro es tbl
    simp
  | cons e rest ih =>
    intro es tbl
    rw [List.foldl_cons]
    show (rest.foldl _ (es ++ [e], mm_insert tbl e.lit es.length)).1 = _
    rw [ih]
    simp

/-- Inserting into the multimap model puts a matching entry at the head of
its equal-key group and leaves every other group's filter unchanged. -/
theorem filter_mm_insert (lit : Int) :
    ∀ (tbl : List (Int × Nat)) (k : Int) (idx : Nat),
      (mm_insert tbl k idx).filter (fun p => p.1 == lit) =
        if k = lit then (k, idx) :: tbl.filter (fun p => p.1 == lit)
        else tbl.filter (fun p => p.1 == lit) := by
  intro tbl
  induction tbl with
  | nil =>
    intro k idx
    by_cases hk : k = lit <;> simp [mm_insert, hk]
  | cons p0 rest ih =>
    intro k idx
    rw [mm_insert]
    by_cases h0 : p0.1 = k <;> by_cases hk : k = lit <;>
      by_cases hp : p0.1 = lit <;>
      simp_all [List.filter_cons, ih]

/-- The equal-key group of `lit` in the built table: the matching
registration events in *reverse* order (each `emplace` prepends to its
group). -/
theorem build_tbl_filter (lit : Int) :
    ∀ (regs es : List Edge) (tbl : List (Int × Nat)),
      ((regs.foldl (fun acc e => register_edge acc.1 acc.2 e) (es, tbl)).2).filter
          (fun p => p.1 == lit) =
        (((List.range regs.length).filter (fun i => (getE regs i).lit == lit)).map
          (fun i => ((getE regs i).lit, es.length + i))).reverse ++
        tbl.filter (fun p => p.1 == lit) := by
  intro regs
  induction regs with
  | nil =>
    intro es tbl
    simp
  | cons e rest ih =>
    intro es tbl
    rw [List.foldl_cons]
    show ((rest.foldl _ (es ++ [e], mm_insert tbl e.lit es.length)).2).filter _ = _
    rw [ih, filter_mm_insert]
    have hmap : ((List.range rest.length).filter
          (fun i => (getE rest i).lit == lit)).map
          (fun i => ((getE rest i).lit, (es ++ [e]).length + i)) =
        ((List.range rest.length).filter
          (fun i => (getE rest i).lit == lit)).map
          (fun i => ((getE (e :: rest) (i + 1)).lit, es.length + (i + 1))) := by
      refine List.map_congr_left ?_
      intro i hi
      refine congrArg₂ Prod.mk rfl ?_
      simp only [List.length_append, List.length_singleton]
      omega
    rw [hmap]
    simp only [List.length_cons, List.range_succ_eq_map, List.filter_cons, List.filter_map]
    have hcomp : ((fun i => (getE (e :: rest) i).lit == lit) ∘ Nat.succ) =
        (fun i => (getE rest i).lit == lit) := by
      funext i
      rfl
    by_cases he : e.lit = lit
    · have hc : ((getE (e :: rest) 0).lit == lit) = true := by
        show (e.lit == lit) = true
        simp [he]
      simp only [hc, if_pos, if_true]
      rw [if_pos he]
      simp only [List.map_cons, List.map_map, List.reverse_cons, hcomp]
      rw [List.append_assoc]
      refine congrArg₂ (· ++ ·) ?_ ?_
      · refine congrArg List.reverse ?_
        refine List.map_congr_left ?_
        intro i hi
        rfl
      · show ((getE (e :: rest) 0).lit, es.length + 0) :: _ = (e.lit, es.length) :: _
        rfl
    · have hc : ((getE (e :: rest) 0).lit == lit) = false := by
        show (e.lit == lit) = false
        simp [he]
      simp only [hc, if_neg, if_false, Bool.false_eq_true]
      rw [if_neg he]
      simp only [List.map_map, hcomp]
      refine congrArg₂ (· ++ ·) ?_ rfl
      refine congrArg List.reverse ?_
      refine List.map_congr_left ?_
      intro i hi
      rfl

theorem edges_for_build (regs : List Edge) (lit : Int) :
    edges_for (build_table regs).2 lit =
      ((List.range regs.length).filter (fun i => (getE regs i).lit == lit)).reverse := by
  unfold edges_for build_table
  rw [build_tbl_filter]
  simp only [List.filter_nil, List.append_nil, List.map_reverse, List.map_map]
  refine congrArg List.reverse ?_
  refine Eq.trans (List.map_congr_left ?_) (List.map_id _)
  intro i hi
  show ([] : List Edge).length + i = i
  simp

/-- A conflict reported by `process_edges` pins down where it happened: the
literal's edge group splits as `pre ++ eidx :: rest`, every call over `pre`
installed its edge (no cycle), the call on `eidx` — made on the graph
obtained by folding `add_edge` over exactly that prefix — returned a
non-empty cycle, and the clause is its image under literal negation, in the
returned order. -/
theorem process_edges_clause (es : List Edge) :
    ∀ (todo : List Nat) (g : DifferenceLogicGraph) (cl : List Int),
      (process_edges es g todo).2 = some cl →
      ∃ pre eidx rest, todo = pre ++ eidx :: rest ∧
        (∀ p2 x p3, pre = p2 ++ x :: p3 →
          (add_edge (add_edges_along g p2) x).1 = []) ∧
        (add_edge (add_edges_along g pre) eidx).1 ≠ [] ∧
        cl = (add_edge (add_edges_along g pre) eidx).1.map
          (fun eid => -(getE es eid).lit) ∧
        (process_edges es g todo).1 = (add_edge (add_edges_along g pre) eidx).2 := by
  intro todo
  induction todo with
  | nil =>
    intro g cl h
    exact absurd h (by simp [process_edges])
  | cons e rest' ih =>
    intro g cl h
    rw [process_edges] at h
    by_cases hc : (add_edge g e).1 ≠ []
    · rw [if_pos hc] at h
      have hcl : (add_edge g e).1.map (fun eid => -(getE es eid).lit) = cl := by
        simpa using h
      refine ⟨[], e, rest', rfl, ?_, hc, hcl.symm, ?_⟩
      · intro p2 x p3 hp
        exact absurd hp.symm (by simp)
      · rw [process_edges, if_pos hc]
        rfl
    · rw [if_neg hc] at h
      obtain ⟨pre', eidx, rest, hsplit, hinst, hne, hcl, hres⟩ := ih _ _ h
      refine ⟨e :: pre', eidx, rest, ?_, ?_, hne, hcl, ?_⟩
      · rw [hsplit]
        rfl
      · intro p2 x p3 hp
        cases p2 with
        | nil =>
          simp only [List.nil_append] at hp
          have hx : e = x := (List.cons.injEq _ _ _ _).mp hp |>.1
          rw [← hx]
          exact not_not.mp hc
        | cons y p2' =>
          simp only [List.cons_append] at hp
          have hy : e = y := (List.cons.injEq _ _ _ _).mp hp |>.1
          have htl : pre' = p2' ++ x :: p3 := (List.cons.injEq _ _ _ _).mp hp |>.2
          show (add_edge (add_edges_along g (y :: p2')) x).1 = []
          rw [← hy]
          exact hinst p2' x p3 htl
      · rw [process_edges, if_neg hc]
        exact hres

/-- A conflict reported by the `check_consistency` loop pins down the
iteration where it happened: `k` conflict-free iterations of the loop body
(`check_step`) were run first, the trail cursor was still in range, the
conflict arose from the `k`-th state's literal group, and the returned state
carries exactly the graph of that conflicting `process_edges` run. -/
theorem check_loop_clause (es : List Edge) (tbl : List (Int × Nat)) :
    ∀ (fuel : Nat) (st : DLState) (cl : List Int),
      (check_loop es tbl fuel st).2 = some cl →
      ∃ k : Nat,
        (∀ j, j < k →
          ((check_step es tbl)^[j] st).propagated <
            ((check_step es tbl)^[j] st).edge_trail.length ∧
          (process_edges es ((check_step es tbl)^[j] st).dl_graph
            (edges_for tbl (((check_step es tbl)^[j] st).edge_trail.getD
              ((check_step es tbl)^[j] st).propagated 0))).2 = none) ∧
        ((check_step es tbl)^[k] st).propagated <
          ((check_step es tbl)^[k] st).edge_trail.length ∧
        (process_edges es ((check_step es tbl)^[k] st).dl_graph
          (edges_for tbl (((check_step es tbl)^[k] st).edge_trail.getD
            ((check_step es tbl)^[k] st).propagated 0))).2 = some cl ∧
        (check_loop es tbl fuel st).1 =
          { ((check_step es tbl)^[k] st) with
            dl_graph := (process_edges es ((check_step es tbl)^[k] st).dl_graph
              (edges_for tbl (((check_step es tbl)^[k] st).edge_trail.getD
                ((check_step es tbl)^[k] st).propagated 0))).1 } := by
  intro fuel
  induction fuel with
  | zero =>
    intro st cl h
    exact absurd h (by simp [check_loop])
  | succ f ih =>
    intro st cl h
    rw [check_loop] at h
    by_cases hlt : st.propagated < st.edge_trail.length
    · rw [if_pos hlt] at h
      rcases hmat : (process_edges es st.dl_graph
          (edges_for tbl (st.edge_trail.getD st.propagated 0))).2 with _ | cl2
      · simp only [hmat] at h
        obtain ⟨k, hprev, hk1, hk2, hk3⟩ := ih _ _ h
        refine ⟨k + 1, ?_, ?_, ?_, ?_⟩
        · intro j hj
          cases j with
          | zero => exact ⟨hlt, hmat⟩
          | succ j' =>
            have hp := hprev j' (by omega)
            simp only [Function.iterate_succ_apply]
            exact hp
        · simp only [Function.iterate_succ_apply]
          exact hk1
        · simp only [Function.iterate_succ_apply]
          exact hk2
        · rw [check_loop, if_pos hlt]
          simp only [hmat]
          simp only [Function.iterate_succ_apply]
          exact hk3
      · simp only [hmat] at h
        have hcl : cl2 = cl := by simpa using h
        rw [hcl] at hmat
        refine ⟨0, ?_, hlt, hmat, ?_⟩
        · intro j hj
          exact absurd hj (Nat.not_lt_zero j)
        · rw [check_loop, if_pos hlt]
          simp only [hmat]
          rfl
    · rw [if_neg hlt] at h
      exact absurd h (by simp)

/-! ### The first edge of a fresh graph -/

/-- C6 (amended): full characterization of `add_edge` on the first edge
`(u → v, w)` of a fresh (or freshly reset) graph: the edge is rejected iff it
is a negative self-loop (`u = v` and `w < 0`); on install, `u` keeps
potential `0` and `v` ends at `min w 0` — so both endpoints get potential 0
only when `w ≥ 0` (see the counterexample). -/
theorem first_edge_spec (u v : Nat) (w l : Int) :
    ((add_edge (freshGraph [⟨u, v, w, l⟩]) 0).1 = [] ↔ (u ≠ v ∨ 0 ≤ w)) ∧
    ((add_edge (freshGraph [⟨u, v, w, l⟩]) 0).1 = [] →
      (getN (add_edge (freshGraph [⟨u, v, w, l⟩]) 0).2.nodes_ u).potential = 0 ∧
      (getN (add_edge (freshGraph [⟨u, v, w, l⟩]) 0).2.nodes_ v).potential = min w 0) := by
  have hWF := WF_fresh [⟨u, v, w, l⟩]
  have hidx : 0 < (freshGraph [⟨u, v, w, l⟩]).edges_.length := Nat.zero_lt_one
  by_cases hw : 0 ≤ w
  · -- non-negative weight: no relaxation at all
    have hgv : ¬ addGv (freshGraph [⟨u, v, w, l⟩]) 0 < 0 := by
      rw [addGv_fresh]
      omega
    have heq := addLoop_of_nonneg hWF hgv
    have hni : ¬ (getN (addLoop (freshGraph [⟨u, v, w, l⟩]) 0).nodes_
        (getE (freshGraph [⟨u, v, w, l⟩]).edges_ 0).from_).gamma < 0 := by
      rw [heq]
      by_cases huv : (getE (freshGraph [⟨u, v, w, l⟩]).edges_ 0).from_ =
          (getE (freshGraph [⟨u, v, w, l⟩]).edges_ 0).to_
      · rw [huv, gamA_v, addGv_fresh]
        omega
      · rw [gamA_eq huv, sc_gamma hWF.1]
        omega
    have hinst : (add_edge (freshGraph [⟨u, v, w, l⟩]) 0).1 = [] := by
      rw [add_edge_fst]
      by_contra hne
      exact hni ((addCycle_ne_nil_iff _ 0).mp hne)
    refine ⟨⟨fun _ => Or.inr hw, fun _ => hinst⟩, fun _ => ⟨?_, ?_⟩⟩
    · have hu : (getN (addInit (freshGraph [⟨u, v, w, l⟩]) 0).nodes_ u).potential =
          potInit (freshGraph [⟨u, v, w, l⟩]) u := potA_u
      simp only [add_edge_snd, addFinal_pot]
      rw [heq, hu, potInit_fresh]
    · have hv : (getN (addInit (freshGraph [⟨u, v, w, l⟩]) 0).nodes_ v).potential =
          potInit (freshGraph [⟨u, v, w, l⟩]) v := potA_v
      simp only [add_edge_snd, addFinal_pot]
      rw [heq, hv, potInit_fresh, min_eq_right hw]
  · have hgvlt : addGv (freshGraph [⟨u, v, w, l⟩]) 0 < 0 := by
      rw [addGv_fresh]
      omega
    by_cases huv : u = v
    · -- negative self-loop: immediate rejection
      have hfv : (getE (freshGraph [⟨u, v, w, l⟩]).edges_ 0).from_ =
          (getE (freshGraph [⟨u, v, w, l⟩]).edges_ 0).to_ := huv
      have hstuck : addLoop (freshGraph [⟨u, v, w, l⟩]) 0 =
          addInit (freshGraph [⟨u, v, w, l⟩]) 0 := by
        unfold addLoop
        refine relax_loop_stuck _ _ _ ?_
        rw [hfv, gamA_v, addGv_fresh]
        omega
      have hcy : (getN (addLoop (freshGraph [⟨u, v, w, l⟩]) 0).nodes_
          (getE (freshGraph [⟨u, v, w, l⟩]).edges_ 0).from_).gamma < 0 := by
        rw [hstuck, hfv, gamA_v, addGv_fresh]
        omega
      have hrej : (add_edge (freshGraph [⟨u, v, w, l⟩]) 0).1 ≠ [] := by
        rw [add_edge_fst]
        exact (addCycle_ne_nil_iff _ 0).mpr hcy
      refine ⟨⟨fun hinst => absurd hinst hrej, fun hc => ?_⟩,
        fun hinst => absurd hinst hrej⟩
      rcases hc with hc | hc
      · exact absurd huv hc
      · exact absurd hc hw
    · -- u ≠ v, negative weight: the edge still installs
      have I := addLoop_inv hWF hidx hgvlt
      have hni : ¬ (getN (addLoop (freshGraph [⟨u, v, w, l⟩]) 0).nodes_
          (getE (freshGraph [⟨u, v, w, l⟩]).edges_ 0).from_).gamma < 0 := by
        intro hug
        have huch : (getN (addLoop (freshGraph [⟨u, v, w, l⟩]) 0).nodes_
            (getE (freshGraph [⟨u, v, w, l⟩]).edges_ 0).from_).changed = false := I.huch
        have hp := I.hpend _ huch hug
        simp only [pendRel, vNode, uNode, wEdge] at hp
        rcases hp with ⟨hid, _, _, _⟩ | ⟨le, hleq, hlelt, hleto, _, _⟩
        · exact huv hid
        · have hle1 : le < 1 := hlelt
          have hle0 : le = 0 := by omega
          rw [hle0] at hleto
          have hvu : v = u := hleto
          exact huv hvu.symm
      have hinst : (add_edge (freshGraph [⟨u, v, w, l⟩]) 0).1 = [] := by
        rw [add_edge_fst]
        by_contra hne
        exact hni ((addCycle_ne_nil_iff _ 0).mp hne)
      have hpu : (getN (addLoop (freshGraph [⟨u, v, w, l⟩]) 0).nodes_ u).potential = 0 := by
        have h1 : (getN (addLoop (freshGraph [⟨u, v, w, l⟩]) 0).nodes_ u).potential =
            (getN (addInit (freshGraph [⟨u, v, w, l⟩]) 0).nodes_ u).potential := I.hupot
        have hu : (getN (addInit (freshGraph [⟨u, v, w, l⟩]) 0).nodes_ u).potential =
            potInit (freshGraph [⟨u, v, w, l⟩]) u := potA_u
        rw [h1, hu, potInit_fresh]
      obtain ⟨hz, hqe⟩ := install_gamma_zero hWF hidx hgvlt hni
      have hchv : (getN (addLoop (freshGraph [⟨u, v, w, l⟩]) 0).nodes_
          (getE (freshGraph [⟨u, v, w, l⟩]).edges_ 0).to_).changed = true := by
        rcases I.hhead with hC | ⟨tl, hC⟩
        · obtain ⟨_, hq2⟩ := I.hinit hC
          rw [hqe] at hq2
          rw [addInit_q, if_pos hgvlt] at hq2
          exact absurd hq2.symm (by simp [qpush])
        · have hvC : (getE (freshGraph [⟨u, v, w, l⟩]).edges_ 0).to_ ∈
              (addLoop (freshGraph [⟨u, v, w, l⟩]) 0).changed_ := by
            rw [hC]
            exact List.mem_cons_self _ _
          exact (I.hchl _ hvC).1
      have hVf := I.hVfirst hchv
      simp only [vNode, uNode, wEdge] at hVf
      have hpv : (getN (addLoop (freshGraph [⟨u, v, w, l⟩]) 0).nodes_ v).potential = w := by
        have h2 : (getN (addLoop (freshGraph [⟨u, v, w, l⟩]) 0).nodes_ v).potential =
            (getN (addLoop (freshGraph [⟨u, v, w, l⟩]) 0).nodes_ u).potential + w := hVf.2
        rw [h2, hpu]
        ring
      refine ⟨⟨fun _ => Or.inl huv, fun _ => hinst⟩, fun _ => ⟨?_, ?_⟩⟩
      · simp only [add_edge_snd, addFinal_pot]
        exact hpu
      · simp only [add_edge_snd, addFinal_pot]
        rw [hpv, min_eq_left (le_of_lt (by omega))]

/-! ### Definedness of node values across `add_edge` -/

theorem add_edge_from_pot {g : DifferenceLogicGraph} {uv_idx : Nat}
    (hWF : WF g) (hidx : uv_idx < g.edges_.length) :
    (getN (add_edge g uv_idx).2.nodes_ (getE g.edges_ uv_idx).from_).potential =
      potInit g (getE g.edges_ uv_idx).from_ := by
  simp only [add_edge_snd, addFinal_pot]
  by_cases hgv : addGv g uv_idx < 0
  · have I := addLoop_inv hWF hidx hgv
    have h1 : (getN (addLoop g uv_idx).nodes_ (getE g.edges_ uv_idx).from_).potential =
        (getN (addInit g uv_idx).nodes_ (getE g.edges_ uv_idx).from_).potential := I.hupot
    rw [h1]
    exact potA_u
  · rw [addLoop_of_nonneg hWF hgv]
    exact potA_u

/-! ### The claims -/

set_option maxRecDepth 40000 in
/-- C1 (counterexample): after a rejecting `add_edge` call the graph is *not*
restored to its pre-call state: in the three-edge cycle scenario the
potential of node 0 differs from its pre-call value. -/
theorem add_edge_cycle_potentials_counterexample :
    (add_edge (add_edge (add_edge
        (freshGraph [⟨0, 1, -2, 1⟩, ⟨1, 2, 1, 2⟩, ⟨2, 0, 0, 3⟩]) 0).2 1).2 2).1 ≠ [] ∧
    ¬ ((getN (add_edge (add_edge (add_edge
          (freshGraph [⟨0, 1, -2, 1⟩, ⟨1, 2, 1, 2⟩, ⟨2, 0, 0, 3⟩]) 0).2 1).2 2).2.nodes_
          0).potential =
        (getN (add_edge (add_edge
          (freshGraph [⟨0, 1, -2, 1⟩, ⟨1, 2, 1, 2⟩, ⟨2, 0, 0, 3⟩]) 0).2 1).2.nodes_
          0).potential) := by
  decide

/-- C1 (amended): when `add_edge` returns a non-empty cycle the edge is indeed
not installed — every `outgoing` list and the edge table are exactly the
pre-call ones and the scratch state is clean — but the node potentials are
*not* restored (see the counterexample). -/
theorem add_edge_cycle_frame {g : DifferenceLogicGraph} {uv_idx : Nat}
    (hWF : WF g) (hidx : uv_idx < g.edges_.length)
    (hcyc : (add_edge g uv_idx).1 ≠ []) :
    (∀ i, (getN (add_edge g uv_idx).2.nodes_ i).outgoing = (getN g.nodes_ i).outgoing) ∧
    (add_edge g uv_idx).2.edges_ = g.edges_ ∧
    scratch_clean (add_edge g uv_idx).2 := by
  have hcy : (getN (addLoop g uv_idx).nodes_ (getE g.edges_ uv_idx).from_).gamma < 0 := by
    refine (addCycle_ne_nil_iff g uv_idx).mp ?_
    rw [add_edge_fst] at hcyc
    exact hcyc
  have hgv := cycle_hgv hWF hcy
  have I := addLoop_inv hWF hidx hgv
  refine ⟨?_, ?_, ?_⟩
  · intro i
    have h1 := addFinal_out_cycle g uv_idx hcy i
    rw [I.hout, outA_eq] at h1
    rw [add_edge_snd]
    exact h1
  · rw [add_edge_snd]
    exact addFinal_edges g uv_idx
  · rw [add_edge_snd]
    exact addFinal_scratch hWF hidx

set_option maxRecDepth 40000 in
theorem add_edge_cycle_frame_witness :
    WF (add_edge (add_edge
        (freshGraph [⟨0, 1, -2, 1⟩, ⟨1, 2, 1, 2⟩, ⟨2, 0, 0, 3⟩]) 0).2 1).2 ∧
    2 < (add_edge (add_edge
        (freshGraph [⟨0, 1, -2, 1⟩, ⟨1, 2, 1, 2⟩, ⟨2, 0, 0, 3⟩]) 0).2 1).2.edges_.length ∧
    (add_edge (add_edge (add_edge
        (freshGraph [⟨0, 1, -2, 1⟩, ⟨1, 2, 1, 2⟩, ⟨2, 0, 0, 3⟩]) 0).2 1).2 2).1 ≠ [] ∧
    ((∀ i, (getN (add_edge (add_edge (add_edge
          (freshGraph [⟨0, 1, -2, 1⟩, ⟨1, 2, 1, 2⟩, ⟨2, 0, 0, 3⟩]) 0).2 1).2 2).2.nodes_
          i).outgoing =
        (getN (add_edge (add_edge
          (freshGraph [⟨0, 1, -2, 1⟩, ⟨1, 2, 1, 2⟩, ⟨2, 0, 0, 3⟩]) 0).2 1).2.nodes_
          i).outgoing) ∧
      (add_edge (add_edge (add_edge
          (freshGraph [⟨0, 1, -2, 1⟩, ⟨1, 2, 1, 2⟩, ⟨2, 0, 0, 3⟩]) 0).2 1).2 2).2.edges_ =
        (add_edge (add_edge
          (freshGraph [⟨0, 1, -2, 1⟩, ⟨1, 2, 1, 2⟩, ⟨2, 0, 0, 3⟩]) 0).2 1).2.edges_ ∧
      scratch_clean (add_edge (add_edge (add_edge
          (freshGraph [⟨0, 1, -2, 1⟩, ⟨1, 2, 1, 2⟩, ⟨2, 0, 0, 3⟩]) 0).2 1).2 2).2) :=
  ⟨by decide, by decide, by decide,
    add_edge_cycle_frame (by decide) (by decide) (by decide)⟩

set_option maxRecDepth 40000 in
/-- C2 (counterexample): the spec's inequality `value(v) − value(u) ≤ w` fails
for an installed active edge; the code maintains the opposite orientation. -/
theorem install_value_direction_counterexample :
    (add_edge (freshGraph [⟨0, 1, -5, 1⟩]) 0).1 = [] ∧
    0 ∈ (getN (add_edge (freshGraph [⟨0, 1, -5, 1⟩]) 0).2.nodes_ 0).outgoing ∧
    ¬ (node_value (add_edge (freshGraph [⟨0, 1, -5, 1⟩]) 0).2 1 -
        node_value (add_edge (freshGraph [⟨0, 1, -5, 1⟩]) 0).2 0 ≤ -5) := by
  decide

/-- C2 (amended): after an `add_edge` call that returns the empty sequence,
every active edge `(u → v, w)` satisfies the non-negative-reduced-weight
inequality `0 ≤ potential(u) + w − potential(v)`, equivalently
`value(u) − value(v) ≤ w` (the spec's `value(v) − value(u) ≤ w` has the
endpoints swapped). -/
theorem add_edge_install_feasible {g : DifferenceLogicGraph} {uv_idx : Nat}
    (hWF : WF g) (hidx : uv_idx < g.edges_.length)
    (hinst : (add_edge g uv_idx).1 = []) :
    Feasible (add_edge g uv_idx).2 ∧
    ∀ i ∈ List.range (add_edge g uv_idx).2.nodes_.length,
      ∀ eidx ∈ (getN (add_edge g uv_idx).2.nodes_ i).outgoing,
        node_value (add_edge g uv_idx).2 i -
          node_value (add_edge g uv_idx).2 (getE g.edges_ eidx).to_ ≤
          (getE g.edges_ eidx).weight := by
  have hni : ¬ (getN (addLoop g uv_idx).nodes_ (getE g.edges_ uv_idx).from_).gamma < 0 := by
    intro h
    have hne := (addCycle_ne_nil_iff g uv_idx).mpr h
    rw [add_edge_fst] at hinst
    exact hne hinst
  have hF := addFinal_feasible hWF hidx hni
  constructor
  · rw [add_edge_snd]
    exact hF
  · intro i hi eidx hmem
    rw [add_edge_snd] at hi hmem ⊢
    have hfe := hF i hi eidx hmem
    simp only [addFinal_edges] at hfe
    simp only [node_value]
    omega

set_option maxRecDepth 40000 in
theorem add_edge_install_feasible_witness :
    WF (freshGraph [⟨0, 1, -5, 1⟩]) ∧
    0 < (freshGraph [⟨0, 1, -5, 1⟩]).edges_.length ∧
    (add_edge (freshGraph [⟨0, 1, -5, 1⟩]) 0).1 = [] ∧
    (Feasible (add_edge (freshGraph [⟨0, 1, -5, 1⟩]) 0).2 ∧
      ∀ i ∈ List.range (add_edge (freshGraph [⟨0, 1, -5, 1⟩]) 0).2.nodes_.length,
        ∀ eidx ∈ (getN (add_edge (freshGraph [⟨0, 1, -5, 1⟩]) 0).2.nodes_ i).outgoing,
          node_value (add_edge (freshGraph [⟨0, 1, -5, 1⟩]) 0).2 i -
            node_value (add_edge (freshGraph [⟨0, 1, -5, 1⟩]) 0).2
              (getE (freshGraph [⟨0, 1, -5, 1⟩]).edges_ eidx).to_ ≤
            (getE (freshGraph [⟨0, 1, -5, 1⟩]).edges_ eidx).weight) :=
  ⟨by decide, by decide, by decide,
    add_edge_install_feasible (by decide) (by decide) (by decide)⟩

/-- C3: whenever `add_edge` returns a non-empty sequence of edge indices, the
sum of the weights of the returned edges is strictly negative. -/
theorem add_edge_cycle_weight_neg {g : DifferenceLogicGraph} {uv_idx : Nat}
    (hWF : WF g) (hidx : uv_idx < g.edges_.length)
    (hcyc : (add_edge g uv_idx).1 ≠ []) :
    weightSum g.edges_ (add_edge g uv_idx).1 < 0 := by
  have hcy : (getN (addLoop g uv_idx).nodes_ (getE g.edges_ uv_idx).from_).gamma < 0 := by
    refine (addCycle_ne_nil_iff g uv_idx).mp ?_
    rw [add_edge_fst] at hcyc
    exact hcyc
  obtain ⟨hsum, _, _⟩ := addCycle_spec hWF hidx hcy
  rw [add_edge_fst, hsum]
  exact hcy

set_option maxRecDepth 40000 in
theorem add_edge_cycle_weight_neg_witness :
    WF (add_edge (add_edge
        (freshGraph [⟨0, 1, -2, 1⟩, ⟨1, 2, 1, 2⟩, ⟨2, 0, 0, 3⟩]) 0).2 1).2 ∧
    2 < (add_edge (add_edge
        (freshGraph [⟨0, 1, -2, 1⟩, ⟨1, 2, 1, 2⟩, ⟨2, 0, 0, 3⟩]) 0).2 1).2.edges_.length ∧
    (add_edge (add_edge (add_edge
        (freshGraph [⟨0, 1, -2, 1⟩, ⟨1, 2, 1, 2⟩, ⟨2, 0, 0, 3⟩]) 0).2 1).2 2).1 ≠ [] ∧
    weightSum (add_edge (add_edge
        (freshGraph [⟨0, 1, -2, 1⟩, ⟨1, 2, 1, 2⟩, ⟨2, 0, 0, 3⟩]) 0).2 1).2.edges_
      (add_edge (add_edge (add_edge
        (freshGraph [⟨0, 1, -2, 1⟩, ⟨1, 2, 1, 2⟩, ⟨2, 0, 0, 3⟩]) 0).2 1).2 2).1 < 0 :=
  ⟨by decide, by decide, by decide,
    add_edge_cycle_weight_neg (by decide) (by decide) (by decide)⟩

set_option maxRecDepth 40000 in
/-- C4 (counterexample): the returned cycle is *not* oriented as the claim
says: in the three-edge scenario the `to` of the first returned edge differs
from the `from` of the second. -/
theorem cycle_order_counterexample :
    (add_edge (add_edge (add_edge
        (freshGraph [⟨0, 1, -2, 1⟩, ⟨1, 2, 1, 2⟩, ⟨2, 0, 0, 3⟩]) 0).2 1).2 2).1 = [2, 1, 0] ∧
    ¬ ((getE [⟨0, 1, -2, 1⟩, ⟨1, 2, 1, 2⟩, (⟨2, 0, 0, 3⟩ : Edge)] 2).to_ =
        (getE [⟨0, 1, -2, 1⟩, ⟨1, 2, 1, 2⟩, (⟨2, 0, 0, 3⟩ : Edge)] 1).from_) := by
  decide

/-- C4 (amended): the returned indices form a directed cycle walked in the
*reverse* direction: the `from` of each returned edge equals the `to` of the
next one, and the `from` of the last equals the `to` of the first. -/
theorem add_edge_cycle_reverse_closed {g : DifferenceLogicGraph} {uv_idx : Nat}
    (hWF : WF g) (hidx : uv_idx < g.edges_.length)
    (hcyc : (add_edge g uv_idx).1 ≠ []) :
    (∀ i, i + 1 < (add_edge g uv_idx).1.length →
      (getE g.edges_ ((add_edge g uv_idx).1.getD i 0)).from_ =
        (getE g.edges_ ((add_edge g uv_idx).1.getD (i + 1) 0)).to_) ∧
    (getE g.edges_
        ((add_edge g uv_idx).1.getD ((add_edge g uv_idx).1.length - 1) 0)).from_ =
      (getE g.edges_ ((add_edge g uv_idx).1.getD 0 0)).to_ := by
  have hcy : (getN (addLoop g uv_idx).nodes_ (getE g.edges_ uv_idx).from_).gamma < 0 := by
    refine (addCycle_ne_nil_iff g uv_idx).mp ?_
    rw [add_edge_fst] at hcyc
    exact hcyc
  obtain ⟨_, hpath, hne⟩ := addCycle_spec hWF hidx hcy
  obtain ⟨hadj, hend⟩ := revPath_adj g.edges_ _ _ _ hpath
  obtain ⟨h0, hlast⟩ := hend hne
  simp only [add_edge_fst]
  exact ⟨hadj, hlast.trans h0.symm⟩

set_option maxRecDepth 40000 in
theorem add_edge_cycle_reverse_closed_witness :
    WF (add_edge (add_edge
        (freshGraph [⟨0, 1, -2, 1⟩, ⟨1, 2, 1, 2⟩, ⟨2, 0, 0, 3⟩]) 0).2 1).2 ∧
    2 < (add_edge (add_edge
        (freshGraph [⟨0, 1, -2, 1⟩, ⟨1, 2, 1, 2⟩, ⟨2, 0, 0, 3⟩]) 0).2 1).2.edges_.length ∧
    (add_edge (add_edge (add_edge
        (freshGraph [⟨0, 1, -2, 1⟩, ⟨1, 2, 1, 2⟩, ⟨2, 0, 0, 3⟩]) 0).2 1).2 2).1 ≠ [] ∧
    ((∀ i, i + 1 < (add_edge (add_edge (add_edge
          (freshGraph [⟨0, 1, -2, 1⟩, ⟨1, 2, 1, 2⟩, ⟨2, 0, 0, 3⟩]) 0).2 1).2 2).1.length →
        (getE (add_edge (add_edge
            (freshGraph [⟨0, 1, -2, 1⟩, ⟨1, 2, 1, 2⟩, ⟨2, 0, 0, 3⟩]) 0).2 1).2.edges_
          ((add_edge (add_edge (add_edge
            (freshGraph [⟨0, 1, -2, 1⟩, ⟨1, 2, 1, 2⟩, ⟨2, 0, 0, 3⟩]) 0).2 1).2 2).1.getD
            i 0)).from_ =
        (getE (add_edge (add_edge
            (freshGraph [⟨0, 1, -2, 1⟩, ⟨1, 2, 1, 2⟩, ⟨2, 0, 0, 3⟩]) 0).2 1).2.edges_
          ((add_edge (add_edge (add_edge
            (freshGraph [⟨0, 1, -2, 1⟩, ⟨1, 2, 1, 2⟩, ⟨2, 0, 0, 3⟩]) 0).2 1).2 2).1.getD
            (i + 1) 0)).to_) ∧
      (getE (add_edge (add_edge
          (freshGraph [⟨0, 1, -2, 1⟩, ⟨1, 2, 1, 2⟩, ⟨2, 0, 0, 3⟩]) 0).2 1).2.edges_
        ((add_edge (add_edge (add_edge
          (freshGraph [⟨0, 1, -2, 1⟩, ⟨1, 2, 1, 2⟩, ⟨2, 0, 0, 3⟩]) 0).2 1).2 2).1.getD
          ((add_edge (add_edge (add_edge
            (freshGraph [⟨0, 1, -2, 1⟩, ⟨1, 2, 1, 2⟩, ⟨2, 0, 0, 3⟩]) 0).2 1).2 2).1.length
            - 1) 0)).from_ =
      (getE (add_edge (add_edge
          (freshGraph [⟨0, 1, -2, 1⟩, ⟨1, 2, 1, 2⟩, ⟨2, 0, 0, 3⟩]) 0).2 1).2.edges_
        ((add_edge (add_edge (add_edge
          (freshGraph [⟨0, 1, -2, 1⟩, ⟨1, 2, 1, 2⟩, ⟨2, 0, 0, 3⟩]) 0).2 1).2 2).1.getD
          0 0)).to_) :=
  ⟨by decide, by decide, by decide,
    add_edge_cycle_reverse_closed (by decide) (by decide) (by decide)⟩

set_option maxRecDepth 40000 in
/-- C5 (counterexample): the trail does *not* receive one edge index per
mapped edge: a literal controlling the two edges `0` and `1` (looked up as
the group `[1, 0]`) contributes the single entry `5` — the literal itself —
to `edge_trail`, neither `[1, 0]` nor `[0, 1]`. -/
theorem trail_stores_literals_counterexample :
    edges_for (build_table [⟨0, 1, 1, 5⟩, ⟨1, 2, 1, 5⟩]).2 5 = [1, 0] ∧
    (propagate (build_table [⟨0, 1, 1, 5⟩, ⟨1, 2, 1, 5⟩]).1
        (build_table [⟨0, 1, 1, 5⟩, ⟨1, 2, 1, 5⟩]).2
        ⟨[], 0, freshGraph (build_table [⟨0, 1, 1, 5⟩, ⟨1, 2, 1, 5⟩]).1⟩
        [5]).1.edge_trail = [5] ∧
    ¬ ((propagate (build_table [⟨0, 1, 1, 5⟩, ⟨1, 2, 1, 5⟩]).1
        (build_table [⟨0, 1, 1, 5⟩, ⟨1, 2, 1, 5⟩]).2
        ⟨[], 0, freshGraph (build_table [⟨0, 1, 1, 5⟩, ⟨1, 2, 1, 5⟩]).1⟩
        [5]).1.edge_trail = [1, 0]) ∧
    ¬ ((propagate (build_table [⟨0, 1, 1, 5⟩, ⟨1, 2, 1, 5⟩]).1
        (build_table [⟨0, 1, 1, 5⟩, ⟨1, 2, 1, 5⟩]).2
        ⟨[], 0, freshGraph (build_table [⟨0, 1, 1, 5⟩, ⟨1, 2, 1, 5⟩]).1⟩
        [5]).1.edge_trail = [0, 1]) := by
  decide

/-- C5 (amended): `propagate` appends the watched *literals* of `changes`
themselves to `edge_trail`, one entry per literal (the per-edge expansion
happens later, inside `check_consistency`'s lookup). -/
theorem propagate_appends_literals (es : List Edge) (tbl : List (Int × Nat))
    (st : DLState) (changes : List Int) :
    ((propagate es tbl st changes).1).edge_trail = st.edge_trail ++ changes := by
  unfold propagate check_consistency
  rw [check_loop_trail]

set_option maxRecDepth 40000 in
/-- C6 (counterexample): the first edge of a fresh graph with negative weight
`-1` and distinct endpoints is *installed* (the claim predicts rejection),
and the target endpoint ends with potential `-1`, not `0`. -/
theorem first_edge_negative_installed :
    (add_edge (freshGraph [⟨0, 1, -1, 1⟩]) 0).1 = [] ∧
    ¬ ((getN (add_edge (freshGraph [⟨0, 1, -1, 1⟩]) 0).2.nodes_ 1).potential = 0) := by
  decide

set_option maxRecDepth 40000 in
/-- C7 (counterexample): two edges registered under the same literal are
looked up in *reverse* registration order — `emplace` on the
`unordered_multimap` prepends within the equal-key group — so the
registration-order lookup the claim asserts does not hold. -/
theorem edges_for_order_counterexample :
    edges_for (build_table [⟨0, 1, 1, 7⟩, ⟨1, 2, 1, 7⟩]).2 7 = [1, 0] ∧
    ¬ (edges_for (build_table [⟨0, 1, 1, 7⟩, ⟨1, 2, 1, 7⟩]).2 7 = [0, 1]) := by
  decide

/-- C7 (amended): the look-up of the edges controlled by a literal returns
exactly the registered edges whose controlling literal equals it — each one
once — but in *reverse* registration order (decreasing edge index): the
standard leaves the within-group order of `unordered_multimap` unspecified
beyond adjacency, and libstdc++'s `emplace` links each new entry at the head
of its equal-key group, which `check_consistency`'s find-loop then walks. -/
theorem edges_for_reverse_registration (regs : List Edge) (lit : Int) :
    (build_table regs).1 = regs ∧
    edges_for (build_table regs).2 lit =
      ((List.range regs.length).filter (fun i => (getE regs i).lit == lit)).reverse := by
  constructor
  · unfold build_table
    rw [build_table_fst]
    rfl
  · exact edges_for_build regs lit

/-- C8: after every `add_edge` call — installing or rejecting — the scratch
state is clean: all `gamma`s zero, all `changed` flags false, queue and
changed list empty. -/
theorem add_edge_scratch_clean {g : DifferenceLogicGraph} {uv_idx : Nat}
    (hWF : WF g) (hidx : uv_idx < g.edges_.length) :
    scratch_clean (add_edge g uv_idx).2 := by
  rw [add_edge_snd]
  exact addFinal_scratch hWF hidx

set_option maxRecDepth 40000 in
theorem add_edge_scratch_clean_witness :
    WF (freshGraph [⟨0, 0, -7, 1⟩]) ∧
    0 < (freshGraph [⟨0, 0, -7, 1⟩]).edges_.length ∧
    scratch_clean (add_edge (freshGraph [⟨0, 0, -7, 1⟩]) 0).2 :=
  ⟨by decide, by decide, add_edge_scratch_clean (by decide) (by decide)⟩

/-- C9: a conflict clause reported by `propagate` is exactly the negations of
the controlling literals of the non-empty cycle returned by the `add_edge`
call that failed during this very run, one literal per returned edge index,
in the returned order. The failing call is pinned to the run: its state is
the `k`-th iterate of the conflict-free loop body `check_step` on the
post-append state (all earlier iterations returned no conflict), its graph
is the fold of `add_edge` over the served prefix `pre` of the current
literal's edge group (each of those calls installed its edge), and the state
handed back carries that call's result graph. -/
theorem propagate_conflict_clause (es : List Edge) (tbl : List (Int × Nat))
    (st : DLState) (changes : List Int) (cl : List Int)
    (h : (propagate es tbl st changes).2 = some cl) :
    ∃ (k : Nat) (stk : DLState) (gm : DifferenceLogicGraph)
      (pre : List Nat) (eidx : Nat) (rest : List Nat),
      stk = (check_step es tbl)^[k] { st with edge_trail := st.edge_trail ++ changes } ∧
      (∀ j, j < k →
        (process_edges es ((check_step es tbl)^[j]
            { st with edge_trail := st.edge_trail ++ changes }).dl_graph
          (edges_for tbl (((check_step es tbl)^[j]
              { st with edge_trail := st.edge_trail ++ changes }).edge_trail.getD
            ((check_step es tbl)^[j]
              { st with edge_trail := st.edge_trail ++ changes }).propagated 0))).2
          = none) ∧
      stk.propagated < stk.edge_trail.length ∧
      edges_for tbl (stk.edge_trail.getD stk.propagated 0) = pre ++ eidx :: rest ∧
      (∀ p2 x p3, pre = p2 ++ x :: p3 →
        (add_edge (add_edges_along stk.dl_graph p2) x).1 = []) ∧
      gm = add_edges_along stk.dl_graph pre ∧
      (add_edge gm eidx).1 ≠ [] ∧
      cl = (add_edge gm eidx).1.map (fun eid => -(getE es eid).lit) ∧
      (propagate es tbl st changes).1.dl_graph = (add_edge gm eidx).2 := by
  unfold propagate check_consistency at h ⊢
  obtain ⟨k, hprev, hlt, hconf, hout⟩ := check_loop_clause es tbl _ _ _ h
  obtain ⟨pre, eidx, rest, hsplit, hinst, hne, hcl, hres⟩ :=
    process_edges_clause es _ _ _ hconf
  refine ⟨k, _, _, pre, eidx, rest, rfl, fun j hj => (hprev j hj).2, hlt, hsplit,
    hinst, rfl, hne, hcl, ?_⟩
  rw [hout]
  exact hres

set_option maxRecDepth 40000 in
theorem propagate_conflict_clause_witness :
    (propagate (build_table [⟨0, 1, 1, 1⟩, ⟨1, 0, -2, 2⟩]).1
        (build_table [⟨0, 1, 1, 1⟩, ⟨1, 0, -2, 2⟩]).2
        ⟨[], 0, freshGraph (build_table [⟨0, 1, 1, 1⟩, ⟨1, 0, -2, 2⟩]).1⟩
        [1, 2]).2 = some [-2, -1] ∧
    ∃ (k : Nat) (stk : DLState) (gm : DifferenceLogicGraph)
      (pre : List Nat) (eidx : Nat) (rest : List Nat),
      stk = (check_step (build_table [⟨0, 1, 1, 1⟩, ⟨1, 0, -2, 2⟩]).1
          (build_table [⟨0, 1, 1, 1⟩, ⟨1, 0, -2, 2⟩]).2)^[k]
        { (⟨[], 0, freshGraph (build_table [⟨0, 1, 1, 1⟩, ⟨1, 0, -2, 2⟩]).1⟩ : DLState)
          with edge_trail := ([] : List Int) ++ [1, 2] } ∧
      (∀ j, j < k →
        (process_edges (build_table [⟨0, 1, 1, 1⟩, ⟨1, 0, -2, 2⟩]).1
          ((check_step (build_table [⟨0, 1, 1, 1⟩, ⟨1, 0, -2, 2⟩]).1
              (build_table [⟨0, 1, 1, 1⟩, ⟨1, 0, -2, 2⟩]).2)^[j]
            { (⟨[], 0, freshGraph (build_table [⟨0, 1, 1, 1⟩, ⟨1, 0, -2, 2⟩]).1⟩ : DLState)
              with edge_trail := ([] : List Int) ++ [1, 2] }).dl_graph
          (edges_for (build_table [⟨0, 1, 1, 1⟩, ⟨1, 0, -2, 2⟩]).2
            (((check_step (build_table [⟨0, 1, 1, 1⟩, ⟨1, 0, -2, 2⟩]).1
                (build_table [⟨0, 1, 1, 1⟩, ⟨1, 0, -2, 2⟩]).2)^[j]
              { (⟨[], 0, freshGraph (build_table [⟨0, 1, 1, 1⟩, ⟨1, 0, -2, 2⟩]).1⟩ : DLState)
                with edge_trail := ([] : List Int) ++ [1, 2] }).edge_trail.getD
              ((check_step (build_table [⟨0, 1, 1, 1⟩, ⟨1, 0, -2, 2⟩]).1
                  (build_table [⟨0, 1, 1, 1⟩, ⟨1, 0, -2, 2⟩]).2)^[j]
                { (⟨[], 0, freshGraph (build_table [⟨0, 1, 1, 1⟩, ⟨1, 0, -2, 2⟩]).1⟩ : DLState)
                  with edge_trail := ([] : List Int) ++ [1, 2] }).propagated 0))).2
          = none) ∧
      stk.propagated < stk.edge_trail.length ∧
      edges_for (build_table [⟨0, 1, 1, 1⟩, ⟨1, 0, -2, 2⟩]).2
          (stk.edge_trail.getD stk.propagated 0) = pre ++ eidx :: rest ∧
      (∀ p2 x p3, pre = p2 ++ x :: p3 →
        (add_edge (add_edges_along stk.dl_graph p2) x).1 = []) ∧
      gm = add_edges_along stk.dl_graph pre ∧
      (add_edge gm eidx).1 ≠ [] ∧
      [-2, -1] = (add_edge gm eidx).1.map
        (fun eid => -(getE (build_table [⟨0, 1, 1, 1⟩, ⟨1, 0, -2, 2⟩]).1 eid).lit) ∧
      (propagate (build_table [⟨0, 1, 1, 1⟩, ⟨1, 0, -2, 2⟩]).1
        (build_table [⟨0, 1, 1, 1⟩, ⟨1, 0, -2, 2⟩]).2
        ⟨[], 0, freshGraph (build_table [⟨0, 1, 1, 1⟩, ⟨1, 0, -2, 2⟩]).1⟩
        [1, 2]).1.dl_graph = (add_edge gm eidx).2 :=
  ⟨by decide, propagate_conflict_clause (build_table [⟨0, 1, 1, 1⟩, ⟨1, 0, -2, 2⟩]).1
      (build_table [⟨0, 1, 1, 1⟩, ⟨1, 0, -2, 2⟩]).2
      ⟨[], 0, freshGraph (build_table [⟨0, 1, 1, 1⟩, ⟨1, 0, -2, 2⟩]).1⟩
      [1, 2] [-2, -1] (by decide)⟩

set_option maxRecDepth 40000 in
/-- C10 (counterexample): after installing the first edge `(0 → 1, -2^31)`
of a fresh graph, the target endpoint's value is *undefined*: the relaxed
potential collides with the `INT_MIN` sentinel. -/
theorem int_min_weight_undefines_endpoint :
    (add_edge (freshGraph [⟨0, 1, -(2 ^ 31), 1⟩]) 0).1 = [] ∧
    node_value_defined (add_edge (freshGraph [⟨0, 1, -(2 ^ 31), 1⟩]) 0).2 1 = false := by
  decide

/-- C10 (amended): after any `add_edge` call the *source* endpoint always has
a defined value; and when the call performs no relaxation (the new edge's
reduced weight is non-negative) the target endpoint is defined too and every
previously defined node value stays defined. The unrestricted claim fails:
a relaxed potential can hit the `INT_MIN` sentinel (see the counterexample). -/
theorem add_edge_endpoint_defined {g : DifferenceLogicGraph} {uv_idx : Nat}
    (hWF : WF g) (hidx : uv_idx < g.edges_.length) :
    node_value_defined (add_edge g uv_idx).2 (getE g.edges_ uv_idx).from_ = true ∧
    (¬ addGv g uv_idx < 0 →
      node_value_defined (add_edge g uv_idx).2 (getE g.edges_ uv_idx).to_ = true ∧
      ∀ i, node_value_defined g i = true →
        node_value_defined (add_edge g uv_idx).2 i = true) := by
  constructor
  · rw [node_value_defined_iff, add_edge_from_pot hWF hidx]
    exact potInit_ne_undef g _
  · intro hgv
    have heq := addLoop_of_nonneg hWF hgv
    constructor
    · rw [node_value_defined_iff]
      simp only [add_edge_snd, addFinal_pot]
      rw [heq]
      have hv : (getN (addInit g uv_idx).nodes_ (getE g.edges_ uv_idx).to_).potential =
          potInit g (getE g.edges_ uv_idx).to_ := potA_v
      rw [hv]
      exact potInit_ne_undef g _
    · intro i hdef
      rw [node_value_defined_iff] at hdef ⊢
      simp only [add_edge_snd, addFinal_pot]
      rw [heq, potA_of_def hdef]
      exact hdef

set_option maxRecDepth 40000 in
theorem add_edge_endpoint_defined_witness :
    WF (freshGraph [⟨0, 1, 2, 1⟩]) ∧
    0 < (freshGraph [⟨0, 1, 2, 1⟩]).edges_.length ∧
    (node_value_defined (add_edge (freshGraph [⟨0, 1, 2, 1⟩]) 0).2
        (getE (freshGraph [⟨0, 1, 2, 1⟩]).edges_ 0).from_ = true ∧
      (¬ addGv (freshGraph [⟨0, 1, 2, 1⟩]) 0 < 0 →
        node_value_defined (add_edge (freshGraph [⟨0, 1, 2, 1⟩]) 0).2
          (getE (freshGraph [⟨0, 1, 2, 1⟩]).edges_ 0).to_ = true ∧
        ∀ i, node_value_defined (freshGraph [⟨0, 1, 2, 1⟩]) i = true →
          node_value_defined (add_edge (freshGraph [⟨0, 1, 2, 1⟩]) 0).2 i = true)) :=
  ⟨by decide, by decide, add_edge_endpoint_defined (by decide) (by decide)⟩

end ClingoDL
